import Mathlib

/-!
Shallow embedding of the time-frequency harmonization core of the repository
(`code/modules/frequency_converter.py`), together with theorems settling the
frozen claims about its specification.

Numeric values of the source (pandas float columns) are modelled as rationals
(`ℚ`), missing values (`NaN`) as `Option.none`, and dataframes as lists of rows.
-/

namespace TS

/-- A calendar date (the canonical `YYYY-MM-DD` date key produced upstream). -/
structure Date where
  y : Int
  m : Int
  d : Int
deriving DecidableEq, Repr

/-- Serial day number of a civil date (proleptic Gregorian), used to model
`pandas` datetime subtraction in days.  Standard days-from-civil algorithm
with floor division. -/
def daysFromCivil (y m d : Int) : Int :=
  let y' : Int := if m ≤ 2 then y - 1 else y
  let era : Int := Int.ediv y' 400
  let yoe : Int := y' - era * 400
  let mp : Int := Int.emod (m + 9) 12
  let doy : Int := Int.ediv (153 * mp + 2) 5 + d - 1
  let doe : Int := yoe * 365 + Int.ediv yoe 4 - Int.ediv yoe 100 + doy
  era * 146097 + doe - 719468

/-- Sort key of a date. -/
def dkey (dt : Date) : Int := daysFromCivil dt.y dt.m dt.d

/-- Linear index of a calendar month, used to model grouping by calendar
month (`resample('MS')`). -/
def monthIndex (y m : Int) : Int := y * 12 + (m - 1)

/-- Median of a list of rationals, as `pandas` computes it: sort, take the
middle element (odd length) or the mean of the two middle elements (even). -/
def medianQ (l : List ℚ) : ℚ :=
  let s := l.insertionSort (· ≤ ·)
  let n := s.length
  if n % 2 = 1 then s.getD (n / 2) 0
  else (s.getD (n / 2 - 1) 0 + s.getD (n / 2) 0) / 2

/-- One row of a tabular series: a date plus the values of the numeric
columns (aligned with `Frame.numCols`; `none` models `NaN`) and of the
non-numeric (text) columns (aligned with `Frame.strCols`). -/
structure FRow where
  date : Date
  nums : List (Option ℚ)
  strs : List String
deriving DecidableEq, Repr

/-- A dataframe: the numeric column names, the non-numeric column names
(as separated by `select_dtypes`), and the rows. -/
structure Frame where
  numCols : List String
  strCols : List String
  rows : List FRow
deriving DecidableEq, Repr

/-- Consecutive day gaps of the date column after sorting
(`df.sort_values('date'); df['date'].diff().dt.days`, the leading `NaN`
dropped). -/
def gaps (dates : List Date) : List Int :=
  let s := (dates.map dkey).insertionSort (· ≤ ·)
  (s.zip s.tail).map (fun p => p.2 - p.1)

/-- Absolute value, written out so that it evaluates by kernel reduction. -/
def absQ (q : ℚ) : ℚ := if q < 0 then -q else q

/-- `abs(df_sorted['date'].diff().dt.days.median())`.  With fewer than two
rows the median is `NaN` (modelled as `none`), which makes every branch
comparison in `process_file` false. -/
def medianGap (f : Frame) : Option ℚ :=
  let g := gaps (f.rows.map FRow.date)
  if g.isEmpty then none else some (absQ (medianQ (g.map (fun z => (z : ℚ)))))

/-- Mean of the present values of a list (`pandas` mean skips `NaN`;
the mean of an empty group is `NaN`). -/
def meanOpt (l : List (Option ℚ)) : Option ℚ :=
  let v := l.filterMap id
  if v.isEmpty then none else some (v.sum / (v.length : ℚ))

/-- The inclusive list of month indices from `a` to `b`. -/
def monthsBetween (a b : Int) : List Int :=
  (List.range (Int.toNat (b - a + 1))).map (fun k => a + Int.ofNat k)

/-- One output row of `resample('MS').mean()` at month index `k`: dated at
the month's first day, each numeric column holding the mean of that
month's observations (`NaN` when the month has none). -/
def aggRow (f : Frame) (k : Int) : FRow :=
  { date := ⟨Int.ediv k 12, Int.emod k 12 + 1, 1⟩
    nums := (List.range f.numCols.length).map (fun j => meanOpt
      ((f.rows.filter (fun r => monthIndex r.date.y r.date.m == k)).map
        (fun r => r.nums.getD j none)))
    strs := [] }

/-- `FrequencyConverter._aggregate_daily_to_monthly`: keep only numeric
columns, `resample('MS').mean()`.  The resampler emits one `aggRow` per
calendar month between the first and last observed month (months with no
observations get a row whose values are all `NaN`). -/
def aggregateDailyToMonthly (f : Frame) : Frame :=
  match f.rows.map (fun r => monthIndex r.date.y r.date.m) with
  | [] => ⟨f.numCols, [], []⟩
  | mk :: mks =>
    ⟨f.numCols, [],
      (monthsBetween (mks.foldl min mk) (mks.foldl max mk)).map (aggRow f)⟩

/-- Nearest valid (non-`NaN`) entry at or before position `i`. -/
def prevValid (l : List (Option ℚ)) (i : Nat) : Option (Nat × ℚ) :=
  (List.range (i + 1)).reverse.findSome?
    (fun j => (l.getD j none).map (fun v => (j, v)))

/-- Nearest valid (non-`NaN`) entry strictly after position `i`. -/
def nextValid (l : List (Option ℚ)) (i : Nat) : Option (Nat × ℚ) :=
  ((List.range l.length).drop (i + 1)).findSome?
    (fun j => (l.getD j none).map (fun v => (j, v)))

/-- `Series.interpolate(method='linear')` with the default forward limit
direction: interior `NaN` runs are filled linearly between the bracketing
valid values, trailing `NaN`s are clamped to the last valid value, and
leading `NaN`s are left missing. -/
def linInterpFwd (l : List (Option ℚ)) : List (Option ℚ) :=
  (List.range l.length).map (fun i =>
    match l.getD i none with
    | some v => some v
    | none =>
      match prevValid l i, nextValid l i with
      | some (j, a), some (k, b) =>
          some (a + (b - a) * (((i : ℚ) - (j : ℚ)) / ((k : ℚ) - (j : ℚ))))
      | some (_, a), none => some a
      | none, _ => none)

/-- `Series.interpolate(method='linear', limit_direction='both')`: as
`linInterpFwd`, but leading `NaN`s are clamped to the first valid value. -/
def linInterpBoth (l : List (Option ℚ)) : List (Option ℚ) :=
  (List.range l.length).map (fun i =>
    match l.getD i none with
    | some v => some v
    | none =>
      match prevValid l i, nextValid l i with
      | some (j, a), some (k, b) =>
          some (a + (b - a) * (((i : ℚ) - (j : ℚ)) / ((k : ℚ) - (j : ℚ))))
      | some (_, a), none => some a
      | none, some (_, b) => some b
      | none, none => none)

/-- The values of numeric column `j` down a list of rows. -/
def colOf (rows : List FRow) (j : Nat) : List (Option ℚ) :=
  rows.map (fun r => r.nums.getD j none)

/-- `FrequencyConverter._interpolate_quarterly_to_monthly`: keep only the
numeric columns, `resample('MS').mean()` (the same resampling operation as
the daily aggregation) and then interpolate each column linearly with
`limit_direction='both'` (the configured method is `linear`). -/
def interpolateQuarterlyToMonthly (f : Frame) : Frame :=
  let base := aggregateDailyToMonthly f
  let cols := (List.range f.numCols.length).map
    (fun j => linInterpBoth (colOf base.rows j))
  { numCols := f.numCols, strCols := []
    rows := base.rows.enum.map
      (fun p => { p.2 with nums := cols.map (fun c => c.getD p.1 none) }) }

/-- `FrequencyConverter._repeat_annual_to_monthly`: for each input row emit
12 rows, one per month of that row's year, dated at the month's first day,
carrying every column of the row unchanged (only the helper `year` column
the function itself adds is dropped again; non-numeric columns are kept). -/
def repeatAnnualToMonthly (f : Frame) : Frame :=
  { numCols := f.numCols, strCols := f.strCols
    rows := f.rows.flatMap (fun r => (List.range 12).map (fun k =>
      { r with date := ⟨r.date.y, (k : Int) + 1, 1⟩ })) }

/-- Frequency class printed by `process_file` for a series. -/
inductive Freq
  | daily | monthly | quarterly | annual
deriving DecidableEq, Repr

/-- Resampling strategy applied by `process_file`. -/
inductive Strategy
  | dailyAgg | quarterlyInterp | annualRepeat
deriving DecidableEq, Repr

/-- Observable outcome of `FrequencyConverter.process_file` on one series:
the detected frequency class, the boolean the function returns (`True` only
when a converted file is written), the strategy applied, and the produced
monthly frame (`none` when the function returns without converting). -/
structure PFResult where
  freq : Freq
  success : Bool
  strategy : Option Strategy
  output : Option Frame
deriving DecidableEq, Repr

/-- `FrequencyConverter.process_file`, branch structure of the source:
`date_diff < 10` → daily aggregation; `50 < date_diff < 120` → quarterly
interpolation; `date_diff > 300` → annual repetition; otherwise the file is
reported as already monthly and the function returns `False` without
producing any output. -/
def processFile (f : Frame) : PFResult :=
  match medianGap f with
  | none => ⟨.monthly, false, none, none⟩
  | some g =>
    if g < 10 then
      ⟨.daily, true, some .dailyAgg, some (aggregateDailyToMonthly f)⟩
    else if 50 < g ∧ g < 120 then
      ⟨.quarterly, true, some .quarterlyInterp,
        some (interpolateQuarterlyToMonthly f)⟩
    else if 300 < g then
      ⟨.annual, true, some .annualRepeat, some (repeatAnnualToMonthly f)⟩
    else ⟨.monthly, false, none, none⟩

/-! ## Chain-linked real-value reconstruction (`_convert_gdp_to_real`) -/

/-- One record of a level+growth series: date, nominal level (`value_col`),
year-over-year growth rate in percent (`growth_col`), and the remaining
columns of the record, which the reconstruction never touches. -/
structure Rec where
  date : Date
  value : ℚ
  growth : ℚ
  others : List (String × Option ℚ) := []
deriving DecidableEq, Repr

/-- Date ordering on records (`df.sort_values('date')`). -/
def recLE (a b : Rec) : Prop := dkey a.date ≤ dkey b.date

instance : DecidableRel recLE :=
  fun a b => inferInstanceAs (Decidable (dkey a.date ≤ dkey b.date))

instance : IsTotal Rec recLE := ⟨fun _ _ => Int.le_total _ _⟩

instance : IsTrans Rec recLE := ⟨fun _ _ _ => Int.le_trans⟩

/-- Sort records by date ascending. -/
def sortRecs (l : List Rec) : List Rec := l.insertionSort recLE

/-- A record counts as a full-year (year-end) observation exactly when its
date's month is December (`df['date'].dt.month == 12`). -/
def isAnnual (r : Rec) : Bool := r.date.m == 12

/-- Warnings printed by the reconstruction. -/
inductive Warn
  | noAnnual | missingBaseYear
deriving DecidableEq, Repr

/-- The `annual_real_gdp` dictionary: insertion-ordered year → real value. -/
abbrev AnnMap := List (Int × ℚ)

/-- Dictionary lookup. -/
def lookupA (m : AnnMap) (y : Int) : Option ℚ :=
  (m.find? (fun p => p.1 == y)).map Prod.snd

/-- Forward propagation loop (base year onwards, ascending).  `p` is the
previously processed year (`years[i-1]`), `g y` the growth rate at year
`y`'s first year-end record, `ix y` that record's row position.  A year is
computed only when the previous year is already in the dictionary. -/
def fwd (g : Int → ℚ) (ix : Int → Option Nat) :
    Int → AnnMap → List (Option ℚ) → List Int → AnnMap × List (Option ℚ)
  | _, ann, real, [] => (ann, real)
  | p, ann, real, y :: ys =>
    match lookupA ann p with
    | some rp =>
      let v := rp * (1 + g y / 100)
      let real' := match ix y with
        | some i => real.set i (some v)
        | none => real
      fwd g ix y ((y, v) :: ann) real' ys
    | none => fwd g ix y ann real ys

/-- Backward propagation loop (years before the base year, descending).
`ny` is the following year (`years[i+1]`); the current year's value is the
following year's value divided by `1 + g ny / 100`.  In the source this is
float division: a degenerate rate `g ny = -100` silently yields an infinite
float rather than an error (the embedding's total `ℚ` division likewise
yields a junk value there; no theorem relies on its magnitude). -/
def bwd (g : Int → ℚ) (ix : Int → Option Nat) :
    Int → AnnMap → List (Option ℚ) → List Int → AnnMap × List (Option ℚ)
  | _, ann, real, [] => (ann, real)
  | ny, ann, real, y :: ys =>
    match lookupA ann ny with
    | some rn =>
      let v := rn / (1 + g ny / 100)
      let real' := match ix y with
        | some i => real.set i (some v)
        | none => real
      bwd g ix y ((y, v) :: ann) real' ys
    | none => bwd g ix y ann real ys

/-- `row['date'] - pd.DateOffset(years=1)` (Feb 29 is clamped to Feb 28). -/
def dateMinusOneYear (dt : Date) : Date :=
  if dt.m = 2 ∧ dt.d = 29 then ⟨dt.y - 1, 2, 28⟩ else ⟨dt.y - 1, dt.m, dt.d⟩

/-- First year-end record of year `y` (`annual_df[annual_df['year']==y].iloc[0]`). -/
def firstAnnRec (recs : List Rec) (annIdx : List Nat) (y : Int) : Option Rec :=
  annIdx.findSome? (fun i =>
    (recs[i]?).bind (fun r => if r.date.y = y then some r else none))

/-- Row position of the first year-end record of year `y`. -/
def firstAnnIdx (recs : List Rec) (annIdx : List Nat) (y : Int) : Option Nat :=
  annIdx.findSome? (fun i =>
    (recs[i]?).bind (fun r => if r.date.y = y then some i else none))

/-- The real value at the same date one year earlier, if that row exists
and is already resolved (`df.loc[prev_mask, real_gdp_col].values[0]`, the
first matching row). -/
def qprev (recs : List Rec) (real : List (Option ℚ)) (r : Rec) : Option ℚ :=
  ((List.range recs.length).find? (fun j =>
    ((recs[j]?).map (fun s => s.date == dateMinusOneYear r.date)).getD
      false)).bind (fun j => real.getD j none)

/-- The nominal ratio of a record to its year's first year-end record
(`1` when the year has no year-end record). -/
def qratio (recs : List Rec) (annIdx : List Nat) (r : Rec) : ℚ :=
  match firstAnnRec recs annIdx r.date.y with
  | some ar => r.value / ar.value
  | none => 1

/-- The fallback branch of the non-year-end loop: scale the year's annual
real value by the nominal ratio, guarded by the (odd, but faithful) check
that the PREVIOUS year is in the dictionary. -/
def qfallback (recs : List Rec) (annIdx : List Nat) (ann : AnnMap)
    (real : List (Option ℚ)) (idx : Nat) (r : Rec) : List (Option ℚ) :=
  if (lookupA ann (r.date.y - 1)).isSome then
    match lookupA ann r.date.y with
    | some ay => real.set idx (some (ay * qratio recs annIdx r))
    | none => real
  else real

/-- One iteration of the non-year-end (cumulative quarterly) loop at row
`idx`: skip already-resolved rows; otherwise use the real value at the same
date one year earlier if resolved, else fall back to scaling the year's
annual real value by the nominal ratio. -/
def qstep (recs : List Rec) (annIdx : List Nat) (ann : AnnMap)
    (real : List (Option ℚ)) (idx : Nat) : List (Option ℚ) :=
  if (real.getD idx none).isSome then real else
  match recs[idx]? with
  | none => real
  | some r =>
    match qprev recs real r with
    | some pv => real.set idx (some (pv * (1 + r.growth / 100)))
    | none => qfallback recs annIdx ann real idx r

/-- The non-year-end loop over all rows in date order. -/
def qpass (recs : List Rec) (annIdx : List Nat) (ann : AnnMap)
    (real0 : List (Option ℚ)) : List (Option ℚ) :=
  (List.range recs.length).foldl (qstep recs annIdx ann) real0

/-- Forward then backward propagation around the anchor position inside the
sorted distinct year list (`base_year_idx = years.index(base_year)`). -/
def annualPhase (g : Int → ℚ) (ix : Int → Option Nat) (years : List Int)
    (anchor : Int) (ann0 : AnnMap) (real0 : List (Option ℚ)) :
    AnnMap × List (Option ℚ) :=
  let bp := years.indexOf anchor
  let fr := fwd g ix anchor ann0 real0 (years.drop (bp + 1))
  bwd g ix anchor fr.1 fr.2 ((years.take bp).reverse)

/-- Everything `_convert_gdp_to_real` computes on the sorted records:
the year-end row positions, the sorted distinct year list, the anchor year
and its row, the final `annual_real_gdp` dictionary, the real column after
the chain steps (`realChain`, before the interpolation fallback), the final
real column (`real`), and the warnings printed. -/
structure ChainResult where
  recs : List Rec
  annIdx : List Nat
  years : List Int
  anchorYear : Int
  anchorIdx : Nat
  ann : AnnMap
  realChain : List (Option ℚ)
  real : List (Option ℚ)
  warns : List Warn
deriving DecidableEq, Repr

/-- Row positions of the year-end (December) records of the date-sorted
records, with the source's fallback to all rows when there are none
(`annual_df = df.copy()`). -/
def annIdxOf (recs : List Rec) : List Nat :=
  let a0 := (List.range recs.length).filter
    (fun i => ((recs[i]?).map isAnnual).getD false)
  if a0.isEmpty then List.range recs.length else a0

/-- `annual_df['year']`: the year of each year-end record, in date order. -/
def annYearsOf (recs : List Rec) : List Int :=
  (annIdxOf recs).filterMap (fun i => (recs[i]?).map (fun r => r.date.y))

/-- Anchor year: the configured base year when a year-end record for it
exists, else the year at the middle position of the year-end records
(`annual_df['year'].iloc[len(annual_df)//2]`). -/
def anchorOf (baseYear : Int) (recs : List Rec) : Int :=
  if baseYear ∈ annYearsOf recs then baseYear
  else (annYearsOf recs).getD ((annYearsOf recs).length / 2) 0

/-- `sorted(annual_df['year'].unique())`. -/
def yearsOf (recs : List Rec) : List Int :=
  (annYearsOf recs).dedup.insertionSort (· ≤ ·)

/-- Growth rate read at year `y`'s first year-end record. -/
def gOf (recs : List Rec) : Int → ℚ :=
  fun y => ((firstAnnRec recs (annIdxOf recs) y).map Rec.growth).getD 0

/-- Row position of the anchor record
(`base_idx = annual_df[base_mask].index[0]`). -/
def anchorIdxOf (baseYear : Int) (recs : List Rec) : Nat :=
  (firstAnnIdx recs (annIdxOf recs) (anchorOf baseYear recs)).getD 0

/-- Nominal level at the anchor record (`base_nominal_gdp`). -/
def v0Of (baseYear : Int) (recs : List Rec) : ℚ :=
  ((recs[anchorIdxOf baseYear recs]?).map Rec.value).getD 0

/-- Real column after the annual chain phase: everything `NaN` except the
rows written by the anchor assignment and the two propagation loops. -/
def chainReal0 (baseYear : Int) (recs : List Rec) : List (Option ℚ) :=
  (List.replicate recs.length (none : Option ℚ)).set
    (anchorIdxOf baseYear recs) (some (v0Of baseYear recs))

/-- The annual phase of the reconstruction, with all inputs named. -/
def chainAnnual (baseYear : Int) (recs : List Rec) : AnnMap × List (Option ℚ) :=
  annualPhase (gOf recs) (fun y => firstAnnIdx recs (annIdxOf recs) y)
    (yearsOf recs) (anchorOf baseYear recs)
    [(anchorOf baseYear recs, v0Of baseYear recs)] (chainReal0 baseYear recs)

/-- Warnings emitted by the reconstruction. -/
def warnsOf (baseYear : Int) (recs : List Rec) : List Warn :=
  (if ((List.range recs.length).filter
      (fun i => ((recs[i]?).map isAnnual).getD false)).isEmpty
    then [Warn.noAnnual] else []) ++
  (if baseYear ∈ annYearsOf recs then [] else [Warn.missingBaseYear])

/-- `FrequencyConverter._convert_gdp_to_real` on the date-sorted records:
select the year-end rows (falling back to all rows when there are none),
pick the anchor year (the configured base year if a year-end record for it
exists, otherwise the record at the middle position of the year-end rows,
with a warning), anchor real = nominal there, chain forwards and backwards
over the available years, resolve non-year-end rows, and finally fill any
remaining `NaN`s by linear interpolation. -/
def chainBuild (baseYear : Int) (recs : List Rec) : ChainResult :=
  let ap := chainAnnual baseYear recs
  let rq := qpass recs (annIdxOf recs) ap.1 ap.2
  let rf := if rq.any (fun o => o.isNone) then linInterpFwd rq else rq
  ⟨recs, annIdxOf recs, yearsOf recs, anchorOf baseYear recs,
    anchorIdxOf baseYear recs, ap.1, rq, rf, warnsOf baseYear recs⟩

/-- The reconstruction as invoked by `process_file`: records are sorted by
date first; an empty input would crash the source (`index[0]` on an empty
frame), modelled as `none`. -/
def chainConvert (baseYear : Int) (df : List Rec) : Option ChainResult :=
  if df.isEmpty then none else some (chainBuild baseYear (sortRecs df))

/-- Reconstructed real value of year `y` (the `annual_real_gdp` entry). -/
def ChainResult.R (cr : ChainResult) (y : Int) : Option ℚ := lookupA cr.ann y

/-- Growth rate at year `y`'s first year-end record. -/
def ChainResult.G (cr : ChainResult) (y : Int) : Option ℚ :=
  (firstAnnRec cr.recs cr.annIdx y).map Rec.growth

/-- Nominal level at year `y`'s first year-end record. -/
def ChainResult.L (cr : ChainResult) (y : Int) : Option ℚ :=
  (firstAnnRec cr.recs cr.annIdx y).map Rec.value

/-- `df[col] = ...` on a column list: pandas appends a new column at the
end, or overwrites in place if it already exists. -/
def addCol (cols : List String) (c : String) : List String :=
  if c ∈ cols then cols else cols ++ [c]

/-- Column set of the frame returned by `_convert_gdp_to_real`: the helper
`year` column and the scratch real-value column are added and finally
dropped again; the nominal column is overwritten in place and keeps its
name; every other column — including the growth-rate column — survives. -/
def chainOutputCols (cols : List String) (valueCol : String) : List String :=
  let realCol := valueCol ++ "_不变价"
  (addCol (addCol cols "year") realCol).filter
    (fun c => !(c == realCol || c == "year"))

/-- One output record of the reconstruction: the nominal value has been
overwritten by the (possibly missing) real value; growth and all other
columns are untouched. -/
structure ORow where
  date : Date
  value : Option ℚ
  growth : ℚ
  others : List (String × Option ℚ)
deriving DecidableEq, Repr

/-- Value-level output rows of `_convert_gdp_to_real`. -/
def chainOutput (cr : ChainResult) : List ORow :=
  (cr.recs.zip cr.real).map (fun p => ⟨p.1.date, p.2, p.1.growth, p.1.others⟩)

/-! ## Unified-panel merge (`create_unified_dataset`) -/

/-- A monthly series/panel: its (already renamed) value column names and
its rows, each a date with named cells (`none` = missing). -/
structure Panel where
  cols : List String
  rows : List (Date × List (String × Option ℚ))
deriving DecidableEq, Repr

/-- Date domain of a panel. -/
def Panel.dates (p : Panel) : List Date := p.rows.map Prod.fst

/-- Cells of the first row carrying a given date. -/
def lookupRow (p : Panel) (dte : Date) : Option (List (String × Option ℚ)) :=
  (p.rows.find? (fun r => r.1 == dte)).map Prod.snd

/-- An all-missing row over the given columns. -/
def noneCells (cols : List String) : List (String × Option ℚ) :=
  cols.map (fun c => (c, none))

/-- The cell of column `c` at date `dte`: `none` when the date has no row,
`some none` when the row exists but the value is missing. -/
def getCell (p : Panel) (dte : Date) (c : String) : Option (Option ℚ) :=
  (lookupRow p dte).bind
    (fun cells => (cells.find? (fun kv => kv.1 == c)).map Prod.snd)

/-- `pd.merge(p, s, on='date', how='outer')`: every date of `p` keeps its
row, extended with `s`'s cells at that date or missing cells; dates of `s`
absent from `p` are appended with `p`'s side missing. -/
def mergeOuter (p s : Panel) : Panel :=
  { cols := p.cols ++ s.cols
    rows := p.rows.map
        (fun r => (r.1, r.2 ++ ((lookupRow s r.1).getD (noneCells s.cols))))
      ++ (s.rows.filter (fun r => !(p.rows.any (fun q => q.1 == r.1)))).map
          (fun r => (r.1, noneCells p.cols ++ r.2)) }

/-- Ordering of panel rows by date. -/
def prowLE (a b : Date × List (String × Option ℚ)) : Prop := dkey a.1 ≤ dkey b.1

instance : DecidableRel prowLE :=
  fun a b => inferInstanceAs (Decidable (dkey a.1 ≤ dkey b.1))

instance : IsTotal (Date × List (String × Option ℚ)) prowLE :=
  ⟨fun _ _ => Int.le_total _ _⟩

instance : IsTrans (Date × List (String × Option ℚ)) prowLE :=
  ⟨fun _ _ _ => Int.le_trans⟩

/-- `merged_df.sort_values('date')`. -/
def sortPanel (p : Panel) : Panel := ⟨p.cols, p.rows.insertionSort prowLE⟩

/-- `FrequencyConverter.create_unified_dataset` on the series that
contribute: start from the base series, outer-merge each further series on
the date key, and sort the result by date ascending. -/
def createUnified (base : Panel) (others : List Panel) : Panel :=
  sortPanel (others.foldl mergeOuter base)

/-- The element at position `length / 2` of a list.  For the nondecreasing
year sequence of the year-end records this is the (upper) median year. -/
def upperMedian (l : List Int) : Option Int := l[l.length / 2]?

/-- Well-formed panel: every row carries exactly the panel's columns. -/
def WFP (p : Panel) : Prop := ∀ r ∈ p.rows, r.2.map Prod.fst = p.cols

instance (p : Panel) : Decidable (WFP p) :=
  inferInstanceAs (Decidable (∀ r ∈ p.rows, r.2.map Prod.fst = p.cols))

/-- A panel carries at most one row per date (the monthly-series
invariant). -/
def NodupDates (p : Panel) : Prop := (p.rows.map Prod.fst).Nodup

instance (p : Panel) : Decidable (NodupDates p) :=
  inferInstanceAs (Decidable ((p.rows.map Prod.fst).Nodup))

/-! ## Concrete inputs used by the claim witnesses and counterexamples -/

/-- Scenario C of the spec: base year 2015 with nominal 1000, growth
`+5%` at 2016 and `+4%` at 2015 (applied backwards to 2014). -/
def dfC1 : List Rec :=
  [⟨⟨2014, 12, 31⟩, 950, 3, []⟩, ⟨⟨2015, 12, 31⟩, 1000, 4, []⟩,
   ⟨⟨2016, 12, 31⟩, 1100, 5, []⟩]

/-- A base-year record followed by a year-end record with growth `-100%`. -/
def dfC2 : List Rec :=
  [⟨⟨2015, 12, 31⟩, 1000, 4, []⟩, ⟨⟨2016, 12, 31⟩, 0, -100, []⟩]

/-- Year-end records for 2010–2013 only (no base-year record for 2015). -/
def dfC8 : List Rec :=
  [⟨⟨2010, 12, 31⟩, 500, 1, []⟩, ⟨⟨2011, 12, 31⟩, 510, 2, []⟩,
   ⟨⟨2012, 12, 31⟩, 520, 3, []⟩, ⟨⟨2013, 12, 31⟩, 530, 4, []⟩]

/-- Year-end records with multi-year gaps around the 2015 base year. -/
def dfC10 : List Rec :=
  [⟨⟨2013, 12, 31⟩, 900, 2, []⟩, ⟨⟨2015, 12, 31⟩, 1000, 4, []⟩,
   ⟨⟨2018, 12, 31⟩, 1300, 10, []⟩]

/-- Two year-end records carrying an extra column untouched by the
reconstruction. -/
def dfC7 : List Rec :=
  [⟨⟨2015, 12, 31⟩, 1000, 4, [("extra", some 7)]⟩,
   ⟨⟨2016, 12, 31⟩, 1050, 5, [("extra", some 8)]⟩]

/-- A daily series (median gap 1 day) observed in January and March 2020,
with no observation at all in February. -/
def frameC5 : Frame :=
  ⟨["v"], [],
   [⟨⟨2020, 1, 1⟩, [some 1], []⟩, ⟨⟨2020, 1, 2⟩, [some 2], []⟩,
    ⟨⟨2020, 1, 3⟩, [some 3], []⟩, ⟨⟨2020, 1, 4⟩, [some 4], []⟩,
    ⟨⟨2020, 1, 5⟩, [some 5], []⟩, ⟨⟨2020, 3, 1⟩, [some 10], []⟩,
    ⟨⟨2020, 3, 2⟩, [some 20], []⟩, ⟨⟨2020, 3, 3⟩, [some 30], []⟩,
    ⟨⟨2020, 3, 4⟩, [some 40], []⟩, ⟨⟨2020, 3, 5⟩, [some 50], []⟩]⟩

/-- A two-month base panel (January and February 2020) with one column. -/
def basePanel : Panel :=
  ⟨["cpi_0"], [(⟨2020, 1, 1⟩, [("cpi_0", some 1)]),
    (⟨2020, 2, 1⟩, [("cpi_0", some 2)])]⟩

/-- A second panel (February and March 2020) overlapping the base panel on
February only. -/
def otherPanel : Panel :=
  ⟨["gdp_1"], [(⟨2020, 2, 1⟩, [("gdp_1", some 3)]),
    (⟨2020, 3, 1⟩, [("gdp_1", some 4)])]⟩

/-- A series of three dates with consecutive gaps of exactly 50 days, so
its median gap is exactly 50. -/
def frameC3 : Frame :=
  ⟨["v"], [], [⟨⟨2020, 1, 1⟩, [some 1], []⟩, ⟨⟨2020, 2, 20⟩, [some 2], []⟩,
    ⟨⟨2020, 4, 10⟩, [some 3], []⟩]⟩

/-- A two-point series with a single gap of 91 days (median 91). -/
def frameC3w : Frame :=
  ⟨["v"], [], [⟨⟨2020, 3, 31⟩, [some 100], []⟩, ⟨⟨2020, 6, 30⟩, [some 110], []⟩]⟩

/-- A series of three dates with consecutive gaps of exactly 30 days, so
its median gap is exactly 30 (inside the claimed monthly band). -/
def frameC4 : Frame :=
  ⟨["v"], [], [⟨⟨2020, 1, 1⟩, [some 1], []⟩, ⟨⟨2020, 1, 31⟩, [some 2], []⟩,
    ⟨⟨2020, 3, 1⟩, [some 3], []⟩]⟩

/-- An annual series (gap 365 days) with a text column `label`. -/
def frameC6 : Frame :=
  ⟨["v"], ["label"], [⟨⟨2020, 12, 31⟩, [some 5], ["x"]⟩,
    ⟨⟨2021, 12, 31⟩, [some 6], ["y"]⟩]⟩

/-! ## Generic helper lemmas -/

/-- The daily aggregation drops every non-numeric column name. -/
theorem aggregate_strCols (f : Frame) : (aggregateDailyToMonthly f).strCols = [] := by
  unfold aggregateDailyToMonthly
  split <;> rfl

/-- Every row of the daily aggregation carries no text cells. -/
theorem aggregate_strs (f : Frame) :
    ∀ r ∈ (aggregateDailyToMonthly f).rows, r.strs = [] := by
  intro r hr
  unfold aggregateDailyToMonthly at hr
  split at hr
  · simp at hr
  · simp only [List.mem_map] at hr
    obtain ⟨k, _, rfl⟩ := hr
    rfl

/-- The quarterly interpolation drops every non-numeric column name. -/
theorem interpolate_strCols (f : Frame) :
    (interpolateQuarterlyToMonthly f).strCols = [] := rfl

/-- Every row of the quarterly interpolation carries no text cells. -/
theorem interpolate_strs (f : Frame) :
    ∀ r ∈ (interpolateQuarterlyToMonthly f).rows, r.strs = [] := by
  intro r hr
  simp only [interpolateQuarterlyToMonthly, List.mem_map] at hr
  obtain ⟨p, hp, rfl⟩ := hr
  obtain ⟨_, h2⟩ := List.mem_enum hp
  have : p.2 ∈ (aggregateDailyToMonthly f).rows := by
    rw [h2]; exact List.getElem_mem _
  exact aggregate_strs f p.2 this

/-- The annual repetition keeps the non-numeric column names. -/
theorem repeat_strCols (f : Frame) :
    (repeatAnnualToMonthly f).strCols = f.strCols := rfl

/-- Every output row of the annual repetition copies some input row's
numeric and text cells unchanged. -/
theorem repeat_rows (f : Frame) :
    ∀ r ∈ (repeatAnnualToMonthly f).rows,
      ∃ src ∈ f.rows, r.strs = src.strs ∧ r.nums = src.nums := by
  intro r hr
  simp only [repeatAnnualToMonthly, List.mem_flatMap, List.mem_map] at hr
  obtain ⟨src, hsrc, k, _, rfl⟩ := hr
  exact ⟨src, hsrc, rfl, rfl⟩

/-! ## Claim C3 (frequency classifier, quarterly band) -/

/-- C3, counterexample: the claim includes the endpoints 50 and 120 in the
quarterly band, but the source tests `date_diff > 50 and date_diff < 120`
strictly, so a median gap of exactly 50 days is classified Monthly and no
interpolation is applied. -/
theorem claim_C3_counterexample :
    medianGap frameC3 = some 50 ∧ (processFile frameC3).freq = Freq.monthly ∧
    (processFile frameC3).strategy = none := by with_unfolding_all decide

/-- C3, amended: for every series whose median gap `g` satisfies
`50 < g < 120` (endpoints excluded), the classifier classifies the series
as Quarterly and applies the quarterly-to-monthly interpolation strategy. -/
theorem claim_C3 (f : Frame) (g : ℚ) (h : medianGap f = some g)
    (h1 : 50 < g) (h2 : g < 120) :
    (processFile f).freq = Freq.quarterly ∧
    (processFile f).strategy = some Strategy.quarterlyInterp ∧
    (processFile f).output = some (interpolateQuarterlyToMonthly f) := by
  simp only [processFile, h]
  rw [if_neg (by linarith), if_pos ⟨h1, h2⟩]
  exact ⟨rfl, rfl, rfl⟩

/-- C3, witness: the amended claim applied at a concrete quarterly series. -/
theorem claim_C3_witness :
    (processFile frameC3w).freq = Freq.quarterly ∧
    (processFile frameC3w).strategy = some Strategy.quarterlyInterp ∧
    (processFile frameC3w).output = some (interpolateQuarterlyToMonthly frameC3w) :=
  claim_C3 frameC3w 91 (by with_unfolding_all decide) (by norm_num) (by norm_num)

/-! ## Claim C4 (frequency classifier, monthly band) -/

/-- C4, counterexample: on a monthly-gap series the claim asserts the
series is passed through as the successful monthly output of the
converter, but `process_file` returns `False` for the already-monthly
branch and produces no output at all. -/
theorem claim_C4_counterexample :
    medianGap frameC4 = some 30 ∧ (processFile frameC4).freq = Freq.monthly ∧
    (processFile frameC4).success = false ∧ (processFile frameC4).output = none := by
  with_unfolding_all decide

/-- C4, amended: for every series whose median gap `g` satisfies
`10 ≤ g ≤ 50` or `120 < g ≤ 300`, the series is classified Monthly and no
resampling is performed, but the converter produces no output for it and
reports the file as not successfully converted (`process_file` returns
`False`); the series is used downstream at its original granularity. -/
theorem claim_C4 (f : Frame) (g : ℚ) (h : medianGap f = some g)
    (hg : (10 ≤ g ∧ g ≤ 50) ∨ (120 < g ∧ g ≤ 300)) :
    processFile f = ⟨Freq.monthly, false, none, none⟩ := by
  simp only [processFile, h]
  rcases hg with ⟨h1, h2⟩ | ⟨h1, h2⟩ <;>
    rw [if_neg (by linarith), if_neg (by rintro ⟨ha, hb⟩; linarith),
      if_neg (by linarith)]

/-- C4, witness: the amended claim applied at the concrete 30-day series. -/
theorem claim_C4_witness : processFile frameC4 = ⟨Freq.monthly, false, none, none⟩ :=
  claim_C4 frameC4 30 (by with_unfolding_all decide) (Or.inl (by norm_num))

/-! ## Claim C6 (non-numeric columns under the three strategies) -/

/-- C6, counterexample: the claim asserts every non-numeric column is
dropped under all three strategies, but the annual-repetition strategy
keeps the text column `label` (and its values) in the output. -/
theorem claim_C6_counterexample :
    (processFile frameC6).strategy = some Strategy.annualRepeat ∧
    ((processFile frameC6).output.map Frame.strCols) = some ["label"] ∧
    ((processFile frameC6).output.map
      (fun o => o.rows.all (fun r => r.strs.isEmpty))) = some false := by
  with_unfolding_all decide

/-! ## Chain-propagation lemmas -/

theorem lookupA_cons_self (m : AnnMap) (y : Int) (v : ℚ) :
    lookupA ((y, v) :: m) y = some v := by
  simp [lookupA, List.find?_cons_of_pos]

theorem lookupA_cons_ne (m : AnnMap) (y q : Int) (v : ℚ) (h : q ≠ y) :
    lookupA ((y, v) :: m) q = lookupA m q := by
  unfold lookupA
  rw [List.find?_cons_of_neg]
  simp [Ne.symm h]

/-- A year has a dictionary entry exactly when it occurs among the keys. -/
theorem lookupA_isSome_iff (m : AnnMap) (q : Int) :
    (lookupA m q).isSome ↔ q ∈ m.map Prod.fst := by
  induction m with
  | nil => simp [lookupA]
  | cons p m ih =>
    obtain ⟨py, pv⟩ := p
    unfold lookupA at ih ⊢
    by_cases h : py = q
    · subst h
      rw [List.find?_cons_of_pos _ (by simp)]
      simp
    · rw [List.find?_cons_of_neg _ (by simp [h])]
      simp only [List.map_cons, List.mem_cons]
      rw [ih]
      constructor
      · exact fun hm => Or.inr hm
      · rintro (he | hm)
        · exact absurd he.symm h
        · exact hm

/-- Unfolding equation of the forward loop. -/
theorem fwd_cons (g : Int → ℚ) (ix : Int → Option Nat) (p : Int) (ann : AnnMap)
    (real : List (Option ℚ)) (y : Int) (ys : List Int) :
    fwd g ix p ann real (y :: ys) =
      match lookupA ann p with
      | some rp =>
        fwd g ix y ((y, rp * (1 + g y / 100)) :: ann)
          (match ix y with
           | some i => real.set i (some (rp * (1 + g y / 100)))
           | none => real) ys
      | none => fwd g ix y ann real ys := rfl

/-- Unfolding equation of the backward loop. -/
theorem bwd_cons (g : Int → ℚ) (ix : Int → Option Nat) (ny : Int) (ann : AnnMap)
    (real : List (Option ℚ)) (y : Int) (ys : List Int) :
    bwd g ix ny ann real (y :: ys) =
      match lookupA ann ny with
      | some rn =>
        bwd g ix y ((y, rn / (1 + g ny / 100)) :: ann)
          (match ix y with
           | some i => real.set i (some (rn / (1 + g ny / 100)))
           | none => real) ys
      | none => bwd g ix y ann real ys := rfl

/-- Behaviour of the forward loop on a strictly ascending year list whose
previous year is resolved: old entries are preserved, every listed year
becomes resolved, consecutive entries satisfy the forward chain relation,
and no other keys appear. -/
theorem fwd_spec (g : Int → ℚ) (ix : Int → Option Nat) :
    ∀ (ys : List Int) (p : Int) (ann : AnnMap) (real : List (Option ℚ)) (vp : ℚ),
    List.Chain (· < ·) p ys → lookupA ann p = some vp →
    (∀ q ∈ ann.map Prod.fst, q ≤ p) →
    (∀ q, q ≤ p → lookupA (fwd g ix p ann real ys).1 q = lookupA ann q) ∧
    (∀ y ∈ ys, y ∈ (fwd g ix p ann real ys).1.map Prod.fst) ∧
    List.Chain' (fun a b => lookupA (fwd g ix p ann real ys).1 b =
      (lookupA (fwd g ix p ann real ys).1 a).map (fun v => v * (1 + g b / 100)))
      (p :: ys) ∧
    (∀ q ∈ (fwd g ix p ann real ys).1.map Prod.fst,
      q ∈ ann.map Prod.fst ∨ q ∈ ys) := by
  intro ys
  induction ys with
  | nil =>
    intro p ann real vp _ hp _
    exact ⟨fun q _ => rfl, by simp, by simp [fwd], fun q hq => Or.inl hq⟩
  | cons y ys ih =>
    intro p ann real vp hch hp hkeys
    obtain ⟨hpy, hch'⟩ := List.chain_cons.mp hch
    have hstep : fwd g ix p ann real (y :: ys) =
        fwd g ix y ((y, vp * (1 + g y / 100)) :: ann)
          (match ix y with
           | some i => real.set i (some (vp * (1 + g y / 100)))
           | none => real) ys := by
      rw [fwd_cons, hp]
    rw [hstep]
    set v := vp * (1 + g y / 100) with hv
    set ann' := (y, v) :: ann with hann'
    set real' := (match ix y with
           | some i => real.set i (some v)
           | none => real) with hreal'
    have hkeys' : ∀ q ∈ ann'.map Prod.fst, q ≤ y := by
      intro q hq
      rcases List.mem_cons.mp hq with h | h
      · exact le_of_eq h
      · exact le_of_lt (lt_of_le_of_lt (hkeys q h) hpy)
    obtain ⟨ihpres, ihres, ihchain, ihkeys⟩ :=
      ih y ann' real' v hch' (lookupA_cons_self ann y v) hkeys'
    refine ⟨?_, ?_, ?_, ?_⟩
    · intro q hq
      rw [ihpres q (le_of_lt (lt_of_le_of_lt hq hpy))]
      exact lookupA_cons_ne ann y q v (by omega)
    · intro z hz
      rcases List.mem_cons.mp hz with h | h
      · subst h
        rw [← lookupA_isSome_iff]
        rw [ihpres z le_rfl, lookupA_cons_self]
        rfl
      · exact ihres z h
    · refine List.chain'_cons.mpr ⟨?_, ihchain⟩
      have h1 : lookupA (fwd g ix y ann' real' ys).1 y = some v := by
        rw [ihpres y le_rfl, lookupA_cons_self]
      have h2 : lookupA (fwd g ix y ann' real' ys).1 p = some vp := by
        rw [ihpres p (le_of_lt hpy), lookupA_cons_ne ann y p v (by omega), hp]
      rw [h1, h2]
      rfl
    · intro q hq
      rcases ihkeys q hq with h | h
      · rcases List.mem_cons.mp h with h' | h'
        · exact Or.inr (List.mem_cons.mpr (Or.inl h'))
        · exact Or.inl h'
      · exact Or.inr (List.mem_cons.mpr (Or.inr h))

/-- Behaviour of the backward loop on a strictly descending year list whose
next year is resolved; mirror image of `fwd_spec`, with the division chain
relation keyed by the following year's growth rate. -/
theorem bwd_spec (g : Int → ℚ) (ix : Int → Option Nat) :
    ∀ (ys : List Int) (ny : Int) (ann : AnnMap) (real : List (Option ℚ)) (vn : ℚ),
    List.Chain (· > ·) ny ys → lookupA ann ny = some vn →
    (∀ q ∈ ann.map Prod.fst, ny ≤ q) →
    (∀ q, ny ≤ q → lookupA (bwd g ix ny ann real ys).1 q = lookupA ann q) ∧
    (∀ y ∈ ys, y ∈ (bwd g ix ny ann real ys).1.map Prod.fst) ∧
    List.Chain' (fun a b => lookupA (bwd g ix ny ann real ys).1 b =
      (lookupA (bwd g ix ny ann real ys).1 a).map (fun v => v / (1 + g a / 100)))
      (ny :: ys) ∧
    (∀ q ∈ (bwd g ix ny ann real ys).1.map Prod.fst,
      q ∈ ann.map Prod.fst ∨ q ∈ ys) := by
  intro ys
  induction ys with
  | nil =>
    intro ny ann real vn _ hp _
    exact ⟨fun q _ => rfl, by simp, by simp [bwd], fun q hq => Or.inl hq⟩
  | cons y ys ih =>
    intro ny ann real vn hch hp hkeys
    obtain ⟨hpy, hch'⟩ := List.chain_cons.mp hch
    have hstep : bwd g ix ny ann real (y :: ys) =
        bwd g ix y ((y, vn / (1 + g ny / 100)) :: ann)
          (match ix y with
           | some i => real.set i (some (vn / (1 + g ny / 100)))
           | none => real) ys := by
      rw [bwd_cons, hp]
    rw [hstep]
    set v := vn / (1 + g ny / 100) with hv
    set ann' := (y, v) :: ann with hann'
    set real' := (match ix y with
           | some i => real.set i (some v)
           | none => real) with hreal'
    have hkeys' : ∀ q ∈ ann'.map Prod.fst, y ≤ q := by
      intro q hq
      rcases List.mem_cons.mp hq with h | h
      · exact le_of_eq h.symm
      · exact le_of_lt (lt_of_lt_of_le hpy (hkeys q h))
    obtain ⟨ihpres, ihres, ihchain, ihkeys⟩ :=
      ih y ann' real' v hch' (lookupA_cons_self ann y v) hkeys'
    refine ⟨?_, ?_, ?_, ?_⟩
    · intro q hq
      rw [ihpres q (le_of_lt (lt_of_lt_of_le hpy hq))]
      exact lookupA_cons_ne ann y q v (by omega)
    · intro z hz
      rcases List.mem_cons.mp hz with h | h
      · subst h
        rw [← lookupA_isSome_iff]
        rw [ihpres z le_rfl, lookupA_cons_self]
        rfl
      · exact ihres z h
    · refine List.chain'_cons.mpr ⟨?_, ihchain⟩
      have h1 : lookupA (bwd g ix y ann' real' ys).1 y = some v := by
        rw [ihpres y le_rfl, lookupA_cons_self]
      have h2 : lookupA (bwd g ix y ann' real' ys).1 ny = some vn := by
        rw [ihpres ny (le_of_lt hpy), lookupA_cons_ne ann y ny v (by omega), hp]
      rw [h1, h2]
      rfl
    · intro q hq
      rcases ihkeys q hq with h | h
      · rcases List.mem_cons.mp h with h' | h'
        · exact Or.inr (List.mem_cons.mpr (Or.inl h'))
        · exact Or.inl h'
      · exact Or.inr (List.mem_cons.mpr (Or.inr h))

/-- A chain relation holding along a list can be replaced by any relation
it implies on elements of the list. -/
theorem chain'_imp_mem {R S : Int → Int → Prop} :
    ∀ {l : List Int}, List.Chain' R l →
      (∀ a ∈ l, ∀ b ∈ l, R a b → S a b) → List.Chain' S l := by
  intro l
  induction l with
  | nil => exact fun _ _ => trivial
  | cons x xs ih =>
    intro hc himp
    cases xs with
    | nil => simp
    | cons y ys =>
      obtain ⟨hr, hc'⟩ := List.chain'_cons.mp hc
      refine List.chain'_cons.mpr
        ⟨himp x (by simp) y (by simp) hr, ih hc' ?_⟩
      intro a ha b hb
      exact himp a (List.mem_cons_of_mem x ha) b (List.mem_cons_of_mem x hb)

/-- The chain relation holds at any two positions that are adjacent in the
list. -/
theorem chain'_rel_of_split {R : Int → Int → Prop} {l l1 l2 : List Int}
    {a b : Int} (hc : List.Chain' R l) (h : l = l1 ++ a :: b :: l2) : R a b := by
  subst h
  exact (List.chain'_cons.mp (List.chain'_append.mp hc).2.1).1

/-- In a pairwise-ordered list (for a transitive irreflexive relation), two
members in relation with no member strictly between them are adjacent. -/
theorem pairwise_adjacent (R : Int → Int → Prop)
    (htr : ∀ x y z : Int, R x y → R y z → R x z)
    (hirr : ∀ x : Int, ¬R x x) :
    ∀ (l : List Int) (a b : Int), List.Pairwise R l → a ∈ l → b ∈ l →
      R a b → (∀ c ∈ l, ¬(R a c ∧ R c b)) →
      ∃ l1 l2, l = l1 ++ a :: b :: l2 := by
  intro l
  induction l with
  | nil => intro a b _ ha; exact absurd ha (List.not_mem_nil a)
  | cons x xs ih =>
    intro a b hp ha hb hab hno
    obtain ⟨hx, hp'⟩ := List.pairwise_cons.mp hp
    rcases List.mem_cons.mp ha with rfl | ha'
    · have hb' : b ∈ xs := by
        rcases List.mem_cons.mp hb with rfl | h
        · exact absurd hab (hirr b)
        · exact h
      cases xs with
      | nil => exact absurd hb' (List.not_mem_nil b)
      | cons z zs =>
        rcases List.mem_cons.mp hb' with rfl | hbz
        · exact ⟨[], zs, rfl⟩
        · have hz : R a z := hx z (List.mem_cons_self z zs)
          have hzb : R z b := (List.pairwise_cons.mp hp').1 b hbz
          exact absurd ⟨hz, hzb⟩
            (hno z (List.mem_cons_of_mem a (List.mem_cons_self z zs)))
    · have hb' : b ∈ xs := by
        rcases List.mem_cons.mp hb with rfl | h
        · exact absurd (htr a b a hab (hx a ha')) (hirr a)
        · exact h
      obtain ⟨l1, l2, hxs⟩ := ih a b hp' ha' hb' hab
        (fun c hc => hno c (List.mem_cons_of_mem x hc))
      exact ⟨x :: l1, l2, by rw [hxs]; rfl⟩

/-- Splitting a list at the first occurrence of a member. -/
theorem indexOf_split (l : List Int) (a : Int) (ha : a ∈ l) :
    l = l.take (l.indexOf a) ++ a :: l.drop (l.indexOf a + 1) := by
  have hlt : l.indexOf a < l.length := List.indexOf_lt_length.mpr ha
  conv_lhs => rw [← List.take_append_drop (l.indexOf a) l]
  rw [List.drop_eq_getElem_cons hlt, List.getElem_indexOf hlt]

/-- Every selected year-end row position is a valid row position. -/
theorem annIdxOf_lt (recs : List Rec) : ∀ i ∈ annIdxOf recs, i < recs.length := by
  intro i hi
  simp only [annIdxOf] at hi
  split at hi
  · exact List.mem_range.mp hi
  · exact List.mem_range.mp (List.mem_filter.mp hi).1

/-- `filterMap` by an everywhere-defined function preserves length. -/
theorem length_filterMap_of_forall_some {α β : Type _} (l : List α)
    (f : α → Option β) (h : ∀ a ∈ l, (f a).isSome) :
    (l.filterMap f).length = l.length := by
  induction l with
  | nil => rfl
  | cons x xs ih =>
    rw [List.filterMap_cons]
    obtain ⟨b, hb⟩ := Option.isSome_iff_exists.mp (h x (List.mem_cons_self x xs))
    rw [hb]
    simp only [List.length_cons]
    rw [ih (fun a ha => h a (List.mem_cons_of_mem x ha))]

/-- There is one year per year-end record. -/
theorem annYearsOf_length (recs : List Rec) :
    (annYearsOf recs).length = (annIdxOf recs).length := by
  unfold annYearsOf
  refine length_filterMap_of_forall_some _ _ ?_
  intro i hi
  have hlt := annIdxOf_lt recs i hi
  rw [List.getElem?_eq_getElem hlt]
  rfl

/-- A nonempty record list yields at least one year-end row (thanks to the
fallback to all rows). -/
theorem annIdxOf_ne_nil (recs : List Rec) (h : recs ≠ []) :
    annIdxOf recs ≠ [] := by
  simp only [annIdxOf]
  split
  · simp only [ne_eq, List.range_eq_nil]
    intro hc
    exact h (List.length_eq_zero.mp hc)
  · intro hc
    simp_all [List.isEmpty_iff]

/-- The sorted distinct year list and the raw year column carry the same
years. -/
theorem mem_yearsOf (recs : List Rec) (y : Int) :
    y ∈ yearsOf recs ↔ y ∈ annYearsOf recs := by
  unfold yearsOf
  rw [List.mem_insertionSort, List.mem_dedup]

/-- The sorted distinct year list is strictly sorted. -/
theorem yearsOf_sorted (recs : List Rec) :
    List.Sorted (· < ·) (yearsOf recs) := by
  have hs : List.Sorted (· ≤ ·) (yearsOf recs) := List.sorted_insertionSort _ _
  have hnd : (yearsOf recs).Nodup :=
    ((List.perm_insertionSort _ _).nodup_iff).mpr (List.nodup_dedup _)
  exact (hs.and hnd).imp (fun h => lt_of_le_of_ne h.1 h.2)

/-- The anchor year is always one of the year-end record years. -/
theorem anchorOf_mem (baseYear : Int) (recs : List Rec) (h : recs ≠ []) :
    anchorOf baseYear recs ∈ annYearsOf recs := by
  unfold anchorOf
  split
  · assumption
  · have hlen : (annYearsOf recs).length ≠ 0 := by
      rw [annYearsOf_length]
      simp only [ne_eq, List.length_eq_zero]
      exact annIdxOf_ne_nil recs h
    rw [List.getD_eq_getElem?_getD,
      List.getElem?_eq_getElem (by omega : (annYearsOf recs).length / 2 < (annYearsOf recs).length)]
    exact List.getElem_mem _

/-- Combined behaviour of the annual phase: the anchor keeps its value,
every listed year is resolved, the forward chain relation holds along the
years from the anchor upwards, the backward chain relation holds along the
years from the anchor downwards, and no other year is resolved. -/
theorem annualPhase_spec (g : Int → ℚ) (ix : Int → Option Nat)
    (years : List Int) (anchor : Int) (v0 : ℚ) (real0 : List (Option ℚ))
    (hs : List.Sorted (· < ·) years) (hmem : anchor ∈ years)
    (res : AnnMap)
    (hres : res = (annualPhase g ix years anchor [(anchor, v0)] real0).1) :
    lookupA res anchor = some v0 ∧
    (∀ y ∈ years, (lookupA res y).isSome) ∧
    List.Chain' (fun a b => lookupA res b = (lookupA res a).map
      (fun v => v * (1 + g b / 100)))
      (anchor :: years.drop (years.indexOf anchor + 1)) ∧
    List.Chain' (fun a b => lookupA res b = (lookupA res a).map
      (fun v => v / (1 + g a / 100)))
      (anchor :: (years.take (years.indexOf anchor)).reverse) ∧
    (∀ q, (lookupA res q).isSome → q ∈ years) := by
  have hsplit := indexOf_split years anchor hmem
  have hpw : List.Pairwise (· < ·) years := hs
  rw [hsplit] at hpw
  obtain ⟨P1, P2, P3⟩ := List.pairwise_append.mp hpw
  have hanchlt : ∀ y ∈ years.drop (years.indexOf anchor + 1), anchor < y :=
    (List.pairwise_cons.mp P2).1
  have hchF : List.Chain (· < ·) anchor (years.drop (years.indexOf anchor + 1)) :=
    List.chain'_iff_pairwise.mpr P2
  obtain ⟨fpres, fres, fchain, fkeys⟩ :=
    fwd_spec g ix (years.drop (years.indexOf anchor + 1)) anchor
      [(anchor, v0)] real0 v0 hchF (lookupA_cons_self [] anchor v0) (by simp)
  have hpwB : List.Pairwise (· < ·) (years.take (years.indexOf anchor) ++ [anchor]) := by
    refine List.pairwise_append.mpr ⟨P1, List.pairwise_singleton _ _, ?_⟩
    intro a ha b hb
    rw [List.mem_singleton.mp hb]
    exact P3 a ha anchor (List.mem_cons_self _ _)
  have hchB : List.Chain (· > ·) anchor
      ((years.take (years.indexOf anchor)).reverse) := by
    have h1 : List.Pairwise (· > ·)
        (anchor :: (years.take (years.indexOf anchor)).reverse) := by
      have h2 : (years.take (years.indexOf anchor) ++ [anchor]).reverse =
          anchor :: (years.take (years.indexOf anchor)).reverse := by
        simp
      rw [← h2]
      exact List.pairwise_reverse.mpr hpwB
    exact List.chain'_iff_pairwise.mpr h1
  have hanch1 : lookupA
      (fwd g ix anchor [(anchor, v0)] real0
        (years.drop (years.indexOf anchor + 1))).1 anchor = some v0 := by
    rw [fpres anchor le_rfl, lookupA_cons_self]
  have hbk : ∀ q ∈ (fwd g ix anchor [(anchor, v0)] real0
      (years.drop (years.indexOf anchor + 1))).1.map Prod.fst, anchor ≤ q := by
    intro q hq
    rcases fkeys q hq with h | h
    · simp only [List.map_cons, List.map_nil, List.mem_singleton] at h
      exact le_of_eq h.symm
    · exact le_of_lt (hanchlt q h)
  obtain ⟨bpres, bres, bchain, bkeys⟩ :=
    bwd_spec g ix ((years.take (years.indexOf anchor)).reverse) anchor
      (fwd g ix anchor [(anchor, v0)] real0
        (years.drop (years.indexOf anchor + 1))).1
      (fwd g ix anchor [(anchor, v0)] real0
        (years.drop (years.indexOf anchor + 1))).2
      v0 hchB hanch1 hbk
  have hres' : res = (bwd g ix anchor
      (fwd g ix anchor [(anchor, v0)] real0
        (years.drop (years.indexOf anchor + 1))).1
      (fwd g ix anchor [(anchor, v0)] real0
        (years.drop (years.indexOf anchor + 1))).2
      ((years.take (years.indexOf anchor)).reverse)).1 := by
    rw [hres]; rfl
  rw [hres']
  refine ⟨?_, ?_, ?_, ?_, ?_⟩
  · rw [bpres anchor le_rfl, hanch1]
  · intro y hy
    conv at hy => rw [hsplit]
    rcases List.mem_append.mp hy with h | h
    · rw [lookupA_isSome_iff]
      exact bres y (by rwa [List.mem_reverse])
    · rcases List.mem_cons.mp h with rfl | h'
      · rw [bpres y le_rfl, hanch1]
        rfl
      · rw [bpres y (le_of_lt (hanchlt y h')), lookupA_isSome_iff]
        exact fres y h'
  · refine chain'_imp_mem fchain ?_
    intro a ha b hb hab
    have hga : anchor ≤ a := by
      rcases List.mem_cons.mp ha with rfl | h
      · exact le_rfl
      · exact le_of_lt (hanchlt a h)
    have hgb : anchor ≤ b := by
      rcases List.mem_cons.mp hb with rfl | h
      · exact le_rfl
      · exact le_of_lt (hanchlt b h)
    rw [bpres a hga, bpres b hgb]
    exact hab
  · exact bchain
  · intro q hq
    rw [lookupA_isSome_iff] at hq
    rcases bkeys q hq with h | h
    · rcases fkeys q h with h' | h'
      · simp only [List.map_cons, List.map_nil, List.mem_singleton] at h'
        rw [h']
        exact hmem
      · rw [hsplit]
        exact List.mem_append.mpr (Or.inr (List.mem_cons_of_mem _ h'))
    · rw [hsplit]
      exact List.mem_append.mpr (Or.inl (by rwa [List.mem_reverse] at h))

/-- `findSome?` succeeds when some member succeeds. -/
theorem findSome?_isSome_of_mem {α β : Type _} {f : α → Option β}
    {l : List α} {a : α} (ha : a ∈ l) (h : (f a).isSome) :
    (l.findSome? f).isSome := by
  induction l with
  | nil => cases ha
  | cons x xs ih =>
    rw [List.findSome?_cons]
    cases hx : f x with
    | some b => simp
    | none =>
      rcases List.mem_cons.mp ha with rfl | ha'
      · rw [hx] at h; cases h
      · exact ih ha'

/-- A year occurring among the year-end records has a first year-end row. -/
theorem firstAnnIdx_isSome_of_mem (recs : List Rec) (y : Int)
    (h : y ∈ annYearsOf recs) :
    (firstAnnIdx recs (annIdxOf recs) y).isSome := by
  unfold annYearsOf at h
  obtain ⟨i, hi, hf⟩ := List.mem_filterMap.mp h
  cases hr : recs[i]? with
  | none => rw [hr] at hf; cases hf
  | some r =>
    rw [hr] at hf
    have hy : r.date.y = y := by simpa using hf
    refine findSome?_isSome_of_mem hi ?_
    rw [hr]
    simp [hy]

/-- What the first year-end row of a year looks like. -/
theorem firstAnn_eq_some (recs : List Rec) (aIdx : List Nat) (y : Int) :
    ∀ {i : Nat}, firstAnnIdx recs aIdx y = some i →
      ∃ r, recs[i]? = some r ∧ r.date.y = y ∧
        firstAnnRec recs aIdx y = some r := by
  induction aIdx with
  | nil => intro i h; simp [firstAnnIdx] at h
  | cons j js ih =>
    intro i h
    unfold firstAnnIdx at h
    rw [List.findSome?_cons] at h
    unfold firstAnnRec
    rw [List.findSome?_cons]
    cases hr : recs[j]? with
    | none =>
      rw [hr] at h
      simp only [Option.none_bind] at h ⊢
      exact ih h
    | some r =>
      rw [hr] at h
      by_cases hy : r.date.y = y
      · simp only [Option.some_bind, if_pos hy] at h ⊢
        exact ⟨r, by rw [← Option.some.inj h]; exact hr, hy, rfl⟩
      · simp only [Option.some_bind, if_neg hy] at h ⊢
        exact ih h

/-- The annual phase of `chainBuild`, specialised from `annualPhase_spec`. -/
theorem chainAnnual_spec (baseYear : Int) (recs : List Rec) (hne : recs ≠ []) :
    lookupA (chainAnnual baseYear recs).1 (anchorOf baseYear recs) =
      some (v0Of baseYear recs) ∧
    (∀ y ∈ yearsOf recs, (lookupA (chainAnnual baseYear recs).1 y).isSome) ∧
    List.Chain' (fun a b => lookupA (chainAnnual baseYear recs).1 b =
      (lookupA (chainAnnual baseYear recs).1 a).map
        (fun v => v * (1 + gOf recs b / 100)))
      (anchorOf baseYear recs :: (yearsOf recs).drop
        ((yearsOf recs).indexOf (anchorOf baseYear recs) + 1)) ∧
    List.Chain' (fun a b => lookupA (chainAnnual baseYear recs).1 b =
      (lookupA (chainAnnual baseYear recs).1 a).map
        (fun v => v / (1 + gOf recs a / 100)))
      (anchorOf baseYear recs :: ((yearsOf recs).take
        ((yearsOf recs).indexOf (anchorOf baseYear recs))).reverse) ∧
    (∀ q, (lookupA (chainAnnual baseYear recs).1 q).isSome →
      q ∈ yearsOf recs) :=
  annualPhase_spec (gOf recs) (fun y => firstAnnIdx recs (annIdxOf recs) y)
    (yearsOf recs) (anchorOf baseYear recs) (v0Of baseYear recs)
    (chainReal0 baseYear recs) (yearsOf_sorted recs)
    ((mem_yearsOf recs _).mpr (anchorOf_mem baseYear recs hne)) _ rfl

/-- Any year of the record set that is at or above the anchor lies in the
forward suffix of the year list. -/
theorem mem_forward_suffix (baseYear : Int) (recs : List Rec) (hne : recs ≠ [])
    (z : Int) (hz : z ∈ yearsOf recs) (hzge : anchorOf baseYear recs ≤ z) :
    z ∈ anchorOf baseYear recs :: (yearsOf recs).drop
      ((yearsOf recs).indexOf (anchorOf baseYear recs) + 1) := by
  have hmem : anchorOf baseYear recs ∈ yearsOf recs :=
    (mem_yearsOf recs _).mpr (anchorOf_mem baseYear recs hne)
  have hsplit := indexOf_split (yearsOf recs) (anchorOf baseYear recs) hmem
  have hpw : List.Pairwise (· < ·)
      ((yearsOf recs).take ((yearsOf recs).indexOf (anchorOf baseYear recs)) ++
        anchorOf baseYear recs :: (yearsOf recs).drop
          ((yearsOf recs).indexOf (anchorOf baseYear recs) + 1)) := by
    rw [← hsplit]; exact yearsOf_sorted recs
  obtain ⟨_, _, P3⟩ := List.pairwise_append.mp hpw
  conv at hz => rw [hsplit]
  rcases List.mem_append.mp hz with h | h
  · have := P3 z h _ (List.mem_cons_self _ _)
    omega
  · exact h

/-- Any year of the record set that is at or below the anchor lies in the
backward list (anchor followed by descending earlier years). -/
theorem mem_backward_list (baseYear : Int) (recs : List Rec) (hne : recs ≠ [])
    (z : Int) (hz : z ∈ yearsOf recs) (hzle : z ≤ anchorOf baseYear recs) :
    z ∈ anchorOf baseYear recs :: ((yearsOf recs).take
      ((yearsOf recs).indexOf (anchorOf baseYear recs))).reverse := by
  have hmem : anchorOf baseYear recs ∈ yearsOf recs :=
    (mem_yearsOf recs _).mpr (anchorOf_mem baseYear recs hne)
  have hsplit := indexOf_split (yearsOf recs) (anchorOf baseYear recs) hmem
  have hpw : List.Pairwise (· < ·)
      ((yearsOf recs).take ((yearsOf recs).indexOf (anchorOf baseYear recs)) ++
        anchorOf baseYear recs :: (yearsOf recs).drop
          ((yearsOf recs).indexOf (anchorOf baseYear recs) + 1)) := by
    rw [← hsplit]; exact yearsOf_sorted recs
  obtain ⟨_, P2, _⟩ := List.pairwise_append.mp hpw
  have hgt : ∀ b ∈ (yearsOf recs).drop
      ((yearsOf recs).indexOf (anchorOf baseYear recs) + 1),
      anchorOf baseYear recs < b := (List.pairwise_cons.mp P2).1
  conv at hz => rw [hsplit]
  rcases List.mem_append.mp hz with h | h
  · exact List.mem_cons_of_mem _ (List.mem_reverse.mpr h)
  · rcases List.mem_cons.mp h with rfl | h'
    · exact List.mem_cons_self _ _
    · have := hgt z h'
      omega

/-- The backward list is strictly descending. -/
theorem backward_list_pairwise (baseYear : Int) (recs : List Rec)
    (hne : recs ≠ []) :
    List.Pairwise (· > ·) (anchorOf baseYear recs :: ((yearsOf recs).take
      ((yearsOf recs).indexOf (anchorOf baseYear recs))).reverse) := by
  have hmem : anchorOf baseYear recs ∈ yearsOf recs :=
    (mem_yearsOf recs _).mpr (anchorOf_mem baseYear recs hne)
  have hsplit := indexOf_split (yearsOf recs) (anchorOf baseYear recs) hmem
  have hpw : List.Pairwise (· < ·)
      ((yearsOf recs).take ((yearsOf recs).indexOf (anchorOf baseYear recs)) ++
        anchorOf baseYear recs :: (yearsOf recs).drop
          ((yearsOf recs).indexOf (anchorOf baseYear recs) + 1)) := by
    rw [← hsplit]; exact yearsOf_sorted recs
  obtain ⟨P1, _, P3⟩ := List.pairwise_append.mp hpw
  have h2 : ((yearsOf recs).take
      ((yearsOf recs).indexOf (anchorOf baseYear recs)) ++
        [anchorOf baseYear recs]).reverse =
      anchorOf baseYear recs :: ((yearsOf recs).take
        ((yearsOf recs).indexOf (anchorOf baseYear recs))).reverse := by
    simp
  rw [← h2]
  refine List.pairwise_reverse.mpr ?_
  refine List.pairwise_append.mpr ⟨P1, List.pairwise_singleton _ _, ?_⟩
  intro a ha b hb
  rw [List.mem_singleton.mp hb]
  exact P3 a ha _ (List.mem_cons_self _ _)

/-- The forward suffix is strictly ascending. -/
theorem forward_suffix_pairwise (baseYear : Int) (recs : List Rec)
    (hne : recs ≠ []) :
    List.Pairwise (· < ·) (anchorOf baseYear recs :: (yearsOf recs).drop
      ((yearsOf recs).indexOf (anchorOf baseYear recs) + 1)) := by
  have hmem : anchorOf baseYear recs ∈ yearsOf recs :=
    (mem_yearsOf recs _).mpr (anchorOf_mem baseYear recs hne)
  have hsplit := indexOf_split (yearsOf recs) (anchorOf baseYear recs) hmem
  have hpw : List.Pairwise (· < ·)
      ((yearsOf recs).take ((yearsOf recs).indexOf (anchorOf baseYear recs)) ++
        anchorOf baseYear recs :: (yearsOf recs).drop
          ((yearsOf recs).indexOf (anchorOf baseYear recs) + 1)) := by
    rw [← hsplit]; exact yearsOf_sorted recs
  exact (List.pairwise_append.mp hpw).2.1

/-- Forward chain step between chronologically adjacent available years at
or above the anchor: the later year's real value is the earlier one's
times `1 + G/100` at the later year. -/
theorem chain_forward_step (baseYear : Int) (recs : List Rec) (hne : recs ≠ [])
    (q y : Int) (hq : q ∈ yearsOf recs) (hy : y ∈ yearsOf recs)
    (hanchq : anchorOf baseYear recs ≤ q) (hqy : q < y)
    (hnob : ∀ c ∈ yearsOf recs, ¬(q < c ∧ c < y)) :
    lookupA (chainAnnual baseYear recs).1 y =
      (lookupA (chainAnnual baseYear recs).1 q).map
        (fun v => v * (1 + gOf recs y / 100)) := by
  have hqL := mem_forward_suffix baseYear recs hne q hq hanchq
  have hyL := mem_forward_suffix baseYear recs hne y hy
    (le_of_lt (lt_of_le_of_lt hanchq hqy))
  have hsubset : ∀ c, c ∈ anchorOf baseYear recs :: (yearsOf recs).drop
      ((yearsOf recs).indexOf (anchorOf baseYear recs) + 1) →
      c ∈ yearsOf recs := by
    intro c hc
    rcases List.mem_cons.mp hc with rfl | h
    · exact (mem_yearsOf recs _).mpr (anchorOf_mem baseYear recs hne)
    · have hmem : anchorOf baseYear recs ∈ yearsOf recs :=
        (mem_yearsOf recs _).mpr (anchorOf_mem baseYear recs hne)
      have hsplit := indexOf_split (yearsOf recs) (anchorOf baseYear recs) hmem
      rw [hsplit]
      exact List.mem_append.mpr (Or.inr (List.mem_cons_of_mem _ h))
  obtain ⟨l1, l2, hadj⟩ := pairwise_adjacent (· < ·)
    (fun _ _ _ h1 h2 => lt_trans h1 h2) (fun x => lt_irrefl x)
    _ q y (forward_suffix_pairwise baseYear recs hne) hqL hyL hqy
    (fun c hc => hnob c (hsubset c hc))
  exact chain'_rel_of_split
    (chainAnnual_spec baseYear recs hne).2.2.1 hadj

/-- Backward chain step between chronologically adjacent available years at
or below the anchor: the earlier year's real value is the later one's
divided by `1 + G/100` at the later year. -/
theorem chain_backward_step (baseYear : Int) (recs : List Rec) (hne : recs ≠ [])
    (p n : Int) (hp : p ∈ yearsOf recs) (hn : n ∈ yearsOf recs)
    (hle : n ≤ anchorOf baseYear recs) (hpn : p < n)
    (hnob : ∀ c ∈ yearsOf recs, ¬(p < c ∧ c < n)) :
    lookupA (chainAnnual baseYear recs).1 p =
      (lookupA (chainAnnual baseYear recs).1 n).map
        (fun v => v / (1 + gOf recs n / 100)) := by
  have hnL := mem_backward_list baseYear recs hne n hn hle
  have hpL := mem_backward_list baseYear recs hne p hp
    (le_of_lt (lt_of_lt_of_le hpn hle))
  have hsubset : ∀ c, c ∈ anchorOf baseYear recs :: ((yearsOf recs).take
      ((yearsOf recs).indexOf (anchorOf baseYear recs))).reverse →
      c ∈ yearsOf recs := by
    intro c hc
    rcases List.mem_cons.mp hc with rfl | h
    · exact (mem_yearsOf recs _).mpr (anchorOf_mem baseYear recs hne)
    · have hmem : anchorOf baseYear recs ∈ yearsOf recs :=
        (mem_yearsOf recs _).mpr (anchorOf_mem baseYear recs hne)
      have hsplit := indexOf_split (yearsOf recs) (anchorOf baseYear recs) hmem
      rw [hsplit]
      exact List.mem_append.mpr (Or.inl (List.mem_reverse.mp h))
  obtain ⟨l1, l2, hadj⟩ := pairwise_adjacent (· > ·)
    (fun _ _ _ h1 h2 => lt_trans h2 h1) (fun x => lt_irrefl x)
    _ n p (backward_list_pairwise baseYear recs hne) hnL hpL hpn
    (fun c hc => by
      have := hnob c (hsubset c hc)
      omega)
  exact chain'_rel_of_split
    (chainAnnual_spec baseYear recs hne).2.2.2.1 hadj

/-- Destructor for a successful reconstruction run. -/
theorem chainConvert_eq (baseYear : Int) (df : List Rec) (cr : ChainResult)
    (h : chainConvert baseYear df = some cr) :
    df ≠ [] ∧ cr = chainBuild baseYear (sortRecs df) := by
  by_cases he : df.isEmpty
  · rw [chainConvert, if_pos he] at h
    cases h
  · rw [chainConvert, if_neg he] at h
    refine ⟨?_, (Option.some.inj h).symm⟩
    intro hnil
    exact he (by simp [hnil])

/-- Sorting does not lose records. -/
theorem sortRecs_ne_nil (df : List Rec) (h : df ≠ []) : sortRecs df ≠ [] := by
  intro hc
  apply h
  unfold sortRecs at hc
  have := (List.perm_insertionSort recLE df).length_eq
  rw [hc] at this
  exact List.length_eq_zero.mp this.symm

/-- When a year-end record for the base year exists, the base year is the
anchor. -/
theorem anchorOf_eq_baseYear (baseYear : Int) (recs : List Rec)
    (h : baseYear ∈ annYearsOf recs) : anchorOf baseYear recs = baseYear := by
  unfold anchorOf
  rw [if_pos h]

/-- A year-end record's year occurs in the year column of the year-end
rows. -/
theorem mem_annYears_of_annual (recs : List Rec) (r : Rec) (hr : r ∈ recs)
    (hann : isAnnual r) : r.date.y ∈ annYearsOf recs := by
  obtain ⟨i, hlt, hget⟩ := List.mem_iff_getElem.mp hr
  have hmem0 : i ∈ (List.range recs.length).filter
      (fun i => ((recs[i]?).map isAnnual).getD false) := by
    refine List.mem_filter.mpr ⟨List.mem_range.mpr hlt, ?_⟩
    rw [List.getElem?_eq_getElem hlt, hget]
    simpa using hann
  have hidx : i ∈ annIdxOf recs := by
    simp only [annIdxOf]
    split
    · next he =>
      rw [List.isEmpty_iff] at he
      rw [he] at hmem0
      cases hmem0
    · exact hmem0
  refine List.mem_filterMap.mpr ⟨i, hidx, ?_⟩
  rw [List.getElem?_eq_getElem hlt, hget]
  rfl

/-- When at least one year-end record exists, every selected year-end row
really is a December record (the fallback is not taken). -/
theorem annIdxOf_annual (recs : List Rec) (h : ∃ r ∈ recs, isAnnual r) :
    ∀ i ∈ annIdxOf recs, ∃ r, recs[i]? = some r ∧ isAnnual r := by
  intro i hi
  simp only [annIdxOf] at hi
  split at hi
  · next he =>
    exfalso
    obtain ⟨r, hr, hann⟩ := h
    obtain ⟨j, hlt, hget⟩ := List.mem_iff_getElem.mp hr
    have hmem0 : j ∈ (List.range recs.length).filter
        (fun i => ((recs[i]?).map isAnnual).getD false) := by
      refine List.mem_filter.mpr ⟨List.mem_range.mpr hlt, ?_⟩
      rw [List.getElem?_eq_getElem hlt, hget]
      simpa using hann
    rw [List.isEmpty_iff] at he
    rw [he] at hmem0
    cases hmem0
  · obtain ⟨hr, hp⟩ := List.mem_filter.mp hi
    have hlt := List.mem_range.mp hr
    refine ⟨recs[i], List.getElem?_eq_getElem hlt, ?_⟩
    rw [List.getElem?_eq_getElem hlt] at hp
    simpa using hp

/-- Reading the growth function at a year with a year-end record. -/
theorem gOf_eq (recs : List Rec) (y : Int) (gv : ℚ)
    (h : (firstAnnRec recs (annIdxOf recs) y).map Rec.growth = some gv) :
    gOf recs y = gv := by
  unfold gOf
  rw [h]
  rfl

/-- The anchor year's reconstructed value is exactly the nominal level of
its first year-end record. -/
theorem anchor_RL (baseYear : Int) (recs : List Rec) (hne : recs ≠ []) :
    (ChainResult.L (chainBuild baseYear recs) (anchorOf baseYear recs)).isSome ∧
    ChainResult.R (chainBuild baseYear recs) (anchorOf baseYear recs) =
      ChainResult.L (chainBuild baseYear recs) (anchorOf baseYear recs) := by
  have hmem : anchorOf baseYear recs ∈ annYearsOf recs :=
    anchorOf_mem baseYear recs hne
  have hidx := firstAnnIdx_isSome_of_mem recs _ hmem
  obtain ⟨i, hi⟩ := Option.isSome_iff_exists.mp hidx
  obtain ⟨r0, hr0, _, hfr⟩ := firstAnn_eq_some recs (annIdxOf recs) _ hi
  have hv0 : v0Of baseYear recs = r0.value := by
    unfold v0Of anchorIdxOf
    rw [hi]
    simp [hr0]
  have hL : ChainResult.L (chainBuild baseYear recs)
      (anchorOf baseYear recs) = some r0.value := by
    show (firstAnnRec recs (annIdxOf recs) _).map Rec.value = some r0.value
    rw [hfr]
    rfl
  refine ⟨by rw [hL]; rfl, ?_⟩
  have hR := (chainAnnual_spec baseYear recs hne).1
  show lookupA (chainAnnual baseYear recs).1 (anchorOf baseYear recs) = _
  rw [hR, hL, hv0]

/-- The linear interpolation never rewrites an already-present value. -/
theorem linInterpFwd_preserves (l : List (Option ℚ)) (i : Nat) (v : ℚ)
    (h : l.getD i none = some v) : (linInterpFwd l).getD i none = some v := by
  have hi : i < l.length := by
    by_contra hge
    rw [List.getD_eq_getElem?_getD, List.getElem?_eq_none (by omega)] at h
    cases h
  unfold linInterpFwd
  rw [List.getD_eq_getElem?_getD] at h
  rw [List.getD_eq_getElem?_getD, List.getElem?_map,
    List.getElem?_range hi]
  simp [h]

/-- The final real column keeps every value the chain steps stored. -/
theorem chainBuild_real_preserves (baseYear : Int) (recs : List Rec)
    (i : Nat) (v : ℚ)
    (h : (chainBuild baseYear recs).realChain.getD i none = some v) :
    (chainBuild baseYear recs).real.getD i none = some v := by
  have heq : (chainBuild baseYear recs).real =
      (if (chainBuild baseYear recs).realChain.any (fun o => o.isNone)
        then linInterpFwd (chainBuild baseYear recs).realChain
        else (chainBuild baseYear recs).realChain) := rfl
  rw [heq]
  split
  · exact linInterpFwd_preserves _ i v h
  · exact h

/-- C6, amended: the daily aggregation and the quarterly interpolation drop
every non-numeric column (only numeric columns appear in their output),
but the annual repetition keeps all columns, carrying each input row's
numeric and text cells unchanged into its 12 monthly copies. -/
theorem claim_C6 (f : Frame) :
    (aggregateDailyToMonthly f).strCols = [] ∧
    (∀ r ∈ (aggregateDailyToMonthly f).rows, r.strs = []) ∧
    (interpolateQuarterlyToMonthly f).strCols = [] ∧
    (∀ r ∈ (interpolateQuarterlyToMonthly f).rows, r.strs = []) ∧
    (repeatAnnualToMonthly f).strCols = f.strCols ∧
    (∀ r ∈ (repeatAnnualToMonthly f).rows,
      ∃ src ∈ f.rows, r.strs = src.strs ∧ r.nums = src.nums) :=
  ⟨aggregate_strCols f, aggregate_strs f, interpolate_strCols f,
    interpolate_strs f, repeat_strCols f, repeat_rows f⟩

/-! ## Claim C5 (daily aggregation) -/

theorem monthIndex_roundtrip (k : Int) :
    monthIndex (Int.ediv k 12) (Int.emod k 12 + 1) = k := by
  unfold monthIndex
  rw [show Int.ediv k 12 = k / 12 from rfl, show Int.emod k 12 = k % 12 from rfl]
  omega

/-- The month of a grid row is its month index. -/
theorem aggRow_month (f : Frame) (k : Int) :
    monthIndex (aggRow f k).date.y (aggRow f k).date.m = k :=
  monthIndex_roundtrip k

/-- The value of a grid row at a numeric column position. -/
theorem aggRow_nums (f : Frame) (k : Int) (j : Nat)
    (hj : j < f.numCols.length) :
    (aggRow f k).nums.getD j none = meanOpt
      ((f.rows.filter (fun r => monthIndex r.date.y r.date.m == k)).map
        (fun r => r.nums.getD j none)) := by
  unfold aggRow
  rw [List.getD_eq_getElem?_getD, List.getElem?_map, List.getElem?_range hj]
  rfl

/-- The month grid is strictly increasing. -/
theorem monthsBetween_chain (a b : Int) :
    List.Chain' (· < ·) (monthsBetween a b) := by
  unfold monthsBetween
  rw [List.chain'_map]
  cases hk : Int.toNat (b - a + 1) with
  | zero => simp
  | succ n =>
    refine (List.chain'_range_succ _ n).mpr ?_
    intro m _
    simp only [Int.ofNat_eq_coe]
    omega

/-- Every month index in the closed interval is on the month grid. -/
theorem mem_monthsBetween (a b k : Int) (h1 : a ≤ k) (h2 : k ≤ b) :
    k ∈ monthsBetween a b := by
  unfold monthsBetween
  refine List.mem_map.mpr ⟨Int.toNat (k - a), ?_, ?_⟩
  · have hlt : Int.toNat (k - a) < Int.toNat (b - a + 1) := by omega
    exact List.mem_range.mpr hlt
  · simp only [Int.ofNat_eq_coe]
    omega

/-- A left fold by `min` is a lower bound of its arguments. -/
theorem foldl_min_le (l : List Int) :
    ∀ (a x : Int), (x = a ∨ x ∈ l) → l.foldl min a ≤ x := by
  induction l with
  | nil =>
    intro a x hx
    rcases hx with rfl | h
    · exact le_rfl
    · cases h
  | cons y ys ih =>
    intro a x hx
    simp only [List.foldl_cons]
    rcases hx with rfl | hx
    · exact le_trans (ih (min x y) (min x y) (Or.inl rfl)) (min_le_left x y)
    · rcases List.mem_cons.mp hx with rfl | hmem
      · exact le_trans (ih (min a x) (min a x) (Or.inl rfl)) (min_le_right a x)
      · exact ih (min a y) x (Or.inr hmem)

/-- A left fold by `max` is an upper bound of its arguments. -/
theorem le_foldl_max (l : List Int) :
    ∀ (a x : Int), (x = a ∨ x ∈ l) → x ≤ l.foldl max a := by
  induction l with
  | nil =>
    intro a x hx
    rcases hx with rfl | h
    · exact le_rfl
    · cases h
  | cons y ys ih =>
    intro a x hx
    simp only [List.foldl_cons]
    rcases hx with rfl | hx
    · exact le_trans (le_max_left x y) (ih (max x y) (max x y) (Or.inl rfl))
    · rcases List.mem_cons.mp hx with rfl | hmem
      · exact le_trans (le_max_right a x) (ih (max a x) (max a x) (Or.inl rfl))
      · exact ih (max a y) x (Or.inr hmem)

/-- C5, counterexample: on a Daily-classified series observed in January
and March 2020 but not in February, the aggregated monthly output contains
a February row whose value is missing — the claim says that month produces
no row at all. -/
theorem claim_C5_counterexample :
    medianGap frameC5 = some 1 ∧
    (processFile frameC5).strategy = some Strategy.dailyAgg ∧
    ((processFile frameC5).output.map
      (fun o => o.rows.map (fun r => (r.date, r.nums)))) =
      some [(⟨2020, 1, 1⟩, [some 3]), (⟨2020, 2, 1⟩, [none]),
        (⟨2020, 3, 1⟩, [some 30])] := by
  set_option maxRecDepth 100000 in with_unfolding_all decide

/-- C5, amended: for every Daily-classified series the monthly output has
one row per calendar month, dated at the month's first day, with strictly
increasing months covering every month between any two observed months;
each row's value is the arithmetic mean of the daily observations of that
month, and a month in range with zero observations still produces a row —
with every value missing — rather than no row. -/
theorem claim_C5 (f : Frame) (g : ℚ) (hne : f.rows ≠ [])
    (hmg : medianGap f = some g) (hg : g < 10) :
    (processFile f).success = true ∧
    (processFile f).strategy = some Strategy.dailyAgg ∧
    (processFile f).output = some (aggregateDailyToMonthly f) ∧
    (∀ r ∈ (aggregateDailyToMonthly f).rows, r.date.d = 1) ∧
    List.Chain' (fun r s => monthIndex r.date.y r.date.m <
      monthIndex s.date.y s.date.m) (aggregateDailyToMonthly f).rows ∧
    (∀ s ∈ f.rows, ∀ t ∈ f.rows, ∀ k,
      monthIndex s.date.y s.date.m ≤ k → k ≤ monthIndex t.date.y t.date.m →
      ∃ r ∈ (aggregateDailyToMonthly f).rows,
        monthIndex r.date.y r.date.m = k) ∧
    (∀ r ∈ (aggregateDailyToMonthly f).rows, ∀ j < f.numCols.length,
      r.nums.getD j none = meanOpt ((f.rows.filter (fun s =>
        monthIndex s.date.y s.date.m ==
          monthIndex r.date.y r.date.m)).map (fun s => s.nums.getD j none))) ∧
    (∀ r ∈ (aggregateDailyToMonthly f).rows,
      f.rows.filter (fun s => monthIndex s.date.y s.date.m ==
        monthIndex r.date.y r.date.m) = [] →
      r.nums = List.replicate f.numCols.length none) := by
  have hpf : processFile f =
      ⟨Freq.daily, true, some Strategy.dailyAgg,
        some (aggregateDailyToMonthly f)⟩ := by
    simp only [processFile, hmg]
    rw [if_pos hg]
  cases hm : f.rows.map (fun r => monthIndex r.date.y r.date.m) with
  | nil => exact absurd (List.map_eq_nil_iff.mp hm) hne
  | cons mk mks =>
  have hagg : (aggregateDailyToMonthly f).rows =
      (monthsBetween (mks.foldl min mk) (mks.foldl max mk)).map (aggRow f) := by
    unfold aggregateDailyToMonthly
    rw [hm]
  refine ⟨by rw [hpf], by rw [hpf], by rw [hpf], ?_, ?_, ?_, ?_, ?_⟩
  · intro r hr
    rw [hagg] at hr
    obtain ⟨k, _, rfl⟩ := List.mem_map.mp hr
    rfl
  · rw [hagg, List.chain'_map]
    refine chain'_imp_mem (monthsBetween_chain _ _) ?_
    intro a _ b _ hab
    rw [aggRow_month, aggRow_month]
    exact hab
  · intro s hs t ht k h1 h2
    have hsM : monthIndex s.date.y s.date.m ∈ mk :: mks := by
      rw [← hm]
      exact List.mem_map.mpr ⟨s, hs, rfl⟩
    have htM : monthIndex t.date.y t.date.m ∈ mk :: mks := by
      rw [← hm]
      exact List.mem_map.mpr ⟨t, ht, rfl⟩
    have hlo : mks.foldl min mk ≤ k :=
      le_trans (foldl_min_le mks mk _
        (by rcases List.mem_cons.mp hsM with h | h
            · exact Or.inl h
            · exact Or.inr h)) h1
    have hhi : k ≤ mks.foldl max mk :=
      le_trans h2 (le_foldl_max mks mk _
        (by rcases List.mem_cons.mp htM with h | h
            · exact Or.inl h
            · exact Or.inr h))
    refine ⟨aggRow f k, ?_, aggRow_month f k⟩
    rw [hagg]
    exact List.mem_map.mpr ⟨k, mem_monthsBetween _ _ k hlo hhi, rfl⟩
  · intro r hr j hj
    rw [hagg] at hr
    obtain ⟨k, _, rfl⟩ := List.mem_map.mp hr
    rw [aggRow_nums f k j hj, aggRow_month]
  · intro r hr hfil
    rw [hagg] at hr
    obtain ⟨k, _, rfl⟩ := List.mem_map.mp hr
    rw [aggRow_month] at hfil
    show (aggRow f k).nums = _
    unfold aggRow
    rw [hfil]
    simp only [List.map_nil]
    refine List.eq_replicate_iff.mpr ⟨by simp, ?_⟩
    intro b hb
    obtain ⟨j, _, rfl⟩ := List.mem_map.mp hb
    rfl

set_option maxRecDepth 100000 in
/-- C5, witness: the amended claim applied at the concrete daily series
with an empty February. -/
theorem claim_C5_witness :
    (processFile frameC5).success = true ∧
    (processFile frameC5).strategy = some Strategy.dailyAgg ∧
    (processFile frameC5).output = some (aggregateDailyToMonthly frameC5) ∧
    (∀ r ∈ (aggregateDailyToMonthly frameC5).rows, r.date.d = 1) ∧
    List.Chain' (fun r s => monthIndex r.date.y r.date.m <
      monthIndex s.date.y s.date.m) (aggregateDailyToMonthly frameC5).rows ∧
    (∀ s ∈ frameC5.rows, ∀ t ∈ frameC5.rows, ∀ k,
      monthIndex s.date.y s.date.m ≤ k → k ≤ monthIndex t.date.y t.date.m →
      ∃ r ∈ (aggregateDailyToMonthly frameC5).rows,
        monthIndex r.date.y r.date.m = k) ∧
    (∀ r ∈ (aggregateDailyToMonthly frameC5).rows, ∀ j < frameC5.numCols.length,
      r.nums.getD j none = meanOpt ((frameC5.rows.filter (fun s =>
        monthIndex s.date.y s.date.m ==
          monthIndex r.date.y r.date.m)).map (fun s => s.nums.getD j none))) ∧
    (∀ r ∈ (aggregateDailyToMonthly frameC5).rows,
      frameC5.rows.filter (fun s => monthIndex s.date.y s.date.m ==
        monthIndex r.date.y r.date.m) = [] →
      r.nums = List.replicate frameC5.numCols.length none) :=
  claim_C5 frameC5 1 (by decide) (by with_unfolding_all decide) (by norm_num)

/-! ## Claim C1 (chain-linked reconstruction, anchored propagation) -/

/-- C1, confirmed: when a year-end record for the base year exists, the
base year is the anchor, its real value is exactly its nominal level, every
later available year `y` whose previous calendar year has a resolved real
value satisfies `R[y] = R[y-1] * (1 + G[y]/100)`, and every earlier
available year `y` whose next calendar year is resolved satisfies
`R[y] = R[y+1] / (1 + G[y+1]/100)`. -/
theorem claim_C1 (baseYear : Int) (df : List Rec) (cr : ChainResult)
    (hcr : chainConvert baseYear df = some cr)
    (hbase : ∃ r ∈ df, isAnnual r ∧ r.date.y = baseYear) :
    cr.anchorYear = baseYear ∧
    ((cr.L baseYear).isSome ∧ cr.R baseYear = cr.L baseYear) ∧
    (∀ y rp gv, y ∈ cr.years → baseYear < y → cr.R (y - 1) = some rp →
      cr.G y = some gv → cr.R y = some (rp * (1 + gv / 100))) ∧
    (∀ y rn gv, y ∈ cr.years → y < baseYear → cr.R (y + 1) = some rn →
      cr.G (y + 1) = some gv → cr.R y = some (rn / (1 + gv / 100))) := by
  obtain ⟨hdf, hcr'⟩ := chainConvert_eq baseYear df cr hcr
  subst hcr'
  have hne : sortRecs df ≠ [] := sortRecs_ne_nil df hdf
  have hbY : baseYear ∈ annYearsOf (sortRecs df) := by
    obtain ⟨r, hr, hann, hy⟩ := hbase
    have hrs : r ∈ sortRecs df := by
      unfold sortRecs
      rw [List.mem_insertionSort]
      exact hr
    exact hy ▸ mem_annYears_of_annual _ r hrs hann
  have hanch : anchorOf baseYear (sortRecs df) = baseYear :=
    anchorOf_eq_baseYear _ _ hbY
  refine ⟨hanch, ?_, ?_, ?_⟩
  · have h := anchor_RL baseYear (sortRecs df) hne
    rwa [hanch] at h
  · intro y rp gv hy hlt hprev hg
    have hprev' : lookupA (chainAnnual baseYear (sortRecs df)).1 (y - 1) =
        some rp := hprev
    have hyy : y - 1 ∈ yearsOf (sortRecs df) := by
      refine (chainAnnual_spec baseYear _ hne).2.2.2.2 (y - 1) ?_
      rw [hprev']
      rfl
    have hstep := chain_forward_step baseYear (sortRecs df) hne (y - 1) y hyy hy
      (by rw [hanch]; omega) (by omega) (fun c hc => by omega)
    have hgOf : gOf (sortRecs df) y = gv := gOf_eq _ y gv hg
    show lookupA (chainAnnual baseYear (sortRecs df)).1 y = _
    rw [hstep, hprev', hgOf]
    rfl
  · intro y rn gv hy hlt hnext hg
    have hnext' : lookupA (chainAnnual baseYear (sortRecs df)).1 (y + 1) =
        some rn := hnext
    have hyy : y + 1 ∈ yearsOf (sortRecs df) := by
      refine (chainAnnual_spec baseYear _ hne).2.2.2.2 (y + 1) ?_
      rw [hnext']
      rfl
    have hstep := chain_backward_step baseYear (sortRecs df) hne y (y + 1) hy hyy
      (by rw [hanch]; omega) (by omega) (fun c hc => by omega)
    have hgOf : gOf (sortRecs df) (y + 1) = gv := gOf_eq _ (y + 1) gv hg
    show lookupA (chainAnnual baseYear (sortRecs df)).1 y = _
    rw [hstep, hnext', hgOf]
    rfl

/-- C1, witness: the anchored propagation applied at the spec's Scenario C
records. -/
theorem claim_C1_witness :
    (chainBuild 2015 (sortRecs dfC1)).anchorYear = 2015 ∧
    (((chainBuild 2015 (sortRecs dfC1)).L 2015).isSome ∧
      (chainBuild 2015 (sortRecs dfC1)).R 2015 =
        (chainBuild 2015 (sortRecs dfC1)).L 2015) ∧
    (∀ y rp gv, y ∈ (chainBuild 2015 (sortRecs dfC1)).years → (2015 : Int) < y →
      (chainBuild 2015 (sortRecs dfC1)).R (y - 1) = some rp →
      (chainBuild 2015 (sortRecs dfC1)).G y = some gv →
      (chainBuild 2015 (sortRecs dfC1)).R y = some (rp * (1 + gv / 100))) ∧
    (∀ y rn gv, y ∈ (chainBuild 2015 (sortRecs dfC1)).years → y < (2015 : Int) →
      (chainBuild 2015 (sortRecs dfC1)).R (y + 1) = some rn →
      (chainBuild 2015 (sortRecs dfC1)).G (y + 1) = some gv →
      (chainBuild 2015 (sortRecs dfC1)).R y = some (rn / (1 + gv / 100))) :=
  claim_C1 2015 dfC1 (chainBuild 2015 (sortRecs dfC1)) rfl
    ⟨⟨⟨2015, 12, 31⟩, 1000, 4, []⟩, by simp [dfC1], rfl, rfl⟩

/-! ## Claim C2 (degenerate growth rate) -/

/-- C2, counterexample: with a growth rate of `-100%` reported for 2016,
the chain step itself stores a real value (`0`, by the forward
multiplication) at that record, the interpolation fallback changes nothing,
and no warning at all is emitted — contradicting the claim that the record
is left unresolved by the chain step, a `DegenerateGrowthRate` condition is
reported, and the value is filled only by interpolation. -/
theorem claim_C2_counterexample :
    (chainConvert 2015 dfC2).map ChainResult.realChain =
      some [some 1000, some 0] ∧
    (chainConvert 2015 dfC2).map ChainResult.real = some [some 1000, some 0] ∧
    (chainConvert 2015 dfC2).map (fun cr => cr.R 2016) = some (some 0) ∧
    (chainConvert 2015 dfC2).map ChainResult.warns = some [] := by
  set_option maxRecDepth 100000 in with_unfolding_all decide

/-- C2, amended: a growth rate of `-100%` is not special-cased.  A year-end
record with `G = -100` after the anchor gets the real value `0` stored by
the ordinary forward multiplication (and a record whose following year
reports `-100` is produced by a float division by zero in the source); the
point is treated as resolved — the interpolation fallback never replaces a
value the chain steps stored — and no degenerate-growth condition is
reported. -/
theorem claim_C2 (baseYear : Int) (df : List Rec) (cr : ChainResult)
    (hcr : chainConvert baseYear df = some cr) (y : Int) (rp : ℚ)
    (hy : y ∈ cr.years) (hlt : cr.anchorYear < y)
    (hprev : cr.R (y - 1) = some rp) (hg : cr.G y = some (-100)) :
    cr.R y = some 0 ∧
    (∀ i v, cr.realChain.getD i none = some v →
      cr.real.getD i none = some v) := by
  obtain ⟨hdf, hcr'⟩ := chainConvert_eq baseYear df cr hcr
  subst hcr'
  have hne : sortRecs df ≠ [] := sortRecs_ne_nil df hdf
  have hlt' : anchorOf baseYear (sortRecs df) < y := hlt
  constructor
  · have hprev' : lookupA (chainAnnual baseYear (sortRecs df)).1 (y - 1) =
        some rp := hprev
    have hyy : y - 1 ∈ yearsOf (sortRecs df) := by
      refine (chainAnnual_spec baseYear _ hne).2.2.2.2 (y - 1) ?_
      rw [hprev']
      rfl
    have hstep := chain_forward_step baseYear (sortRecs df) hne (y - 1) y hyy hy
      (by omega) (by omega) (fun c hc => by omega)
    have hgOf : gOf (sortRecs df) y = -100 := gOf_eq _ y _ hg
    show lookupA (chainAnnual baseYear (sortRecs df)).1 y = some 0
    rw [hstep, hprev', hgOf]
    simp only [Option.map_some']
    norm_num
  · intro i v h
    exact chainBuild_real_preserves baseYear (sortRecs df) i v h

set_option maxRecDepth 100000 in
/-- C2, witness: the amended claim applied at the concrete degenerate
records. -/
theorem claim_C2_witness :
    (chainBuild 2015 (sortRecs dfC2)).R 2016 = some 0 ∧
    (∀ i v, (chainBuild 2015 (sortRecs dfC2)).realChain.getD i none = some v →
      (chainBuild 2015 (sortRecs dfC2)).real.getD i none = some v) :=
  claim_C2 2015 dfC2 (chainBuild 2015 (sortRecs dfC2)) rfl 2016 1000
    (by with_unfolding_all decide) (by with_unfolding_all decide)
    (by with_unfolding_all decide) (by with_unfolding_all decide)

/-! ## Claim C7 (columns of the reconstruction output) -/

/-- The forward loop never changes the length of the real column. -/
theorem fwd_real_length (g : Int → ℚ) (ix : Int → Option Nat) :
    ∀ (ys : List Int) (p : Int) (ann : AnnMap) (real : List (Option ℚ)),
    ((fwd g ix p ann real ys).2).length = real.length := by
  intro ys
  induction ys with
  | nil => intro p ann real; rfl
  | cons y ys ih =>
    intro p ann real
    rw [fwd_cons]
    cases h : lookupA ann p with
    | none => exact ih y ann real
    | some rp =>
      cases hix : ix y with
      | none => exact ih y _ real
      | some i => exact (ih y _ _).trans (List.length_set real i _)

/-- The backward loop never changes the length of the real column. -/
theorem bwd_real_length (g : Int → ℚ) (ix : Int → Option Nat) :
    ∀ (ys : List Int) (ny : Int) (ann : AnnMap) (real : List (Option ℚ)),
    ((bwd g ix ny ann real ys).2).length = real.length := by
  intro ys
  induction ys with
  | nil => intro ny ann real; rfl
  | cons y ys ih =>
    intro ny ann real
    rw [bwd_cons]
    cases h : lookupA ann ny with
    | none => exact ih y ann real
    | some rn =>
      cases hix : ix y with
      | none => exact ih y _ real
      | some i => exact (ih y _ _).trans (List.length_set real i _)

/-- The fallback branch preserves the column length. -/
theorem qfallback_length (recs : List Rec) (aIdx : List Nat) (ann : AnnMap)
    (real : List (Option ℚ)) (idx : Nat) (r : Rec) :
    (qfallback recs aIdx ann real idx r).length = real.length := by
  unfold qfallback
  repeat' split
  all_goals simp [List.length_set]

/-- One step of the non-year-end loop preserves the column length. -/
theorem qstep_length (recs : List Rec) (aIdx : List Nat) (ann : AnnMap)
    (real : List (Option ℚ)) (idx : Nat) :
    (qstep recs aIdx ann real idx).length = real.length := by
  unfold qstep
  split
  · rfl
  split
  · rfl
  next r heq =>
    cases hpv : qprev recs real r with
    | some pv => simp [List.length_set]
    | none => exact qfallback_length recs aIdx ann real idx r

/-- The non-year-end loop preserves the column length. -/
theorem qpass_length (recs : List Rec) (aIdx : List Nat) (ann : AnnMap) :
    ∀ (l : List Nat) (real : List (Option ℚ)),
    (l.foldl (qstep recs aIdx ann) real).length = real.length := by
  intro l
  induction l with
  | nil => intro real; rfl
  | cons i l ih =>
    intro real
    rw [List.foldl_cons]
    exact (ih _).trans (qstep_length recs aIdx ann real i)

/-- Interpolation preserves the column length. -/
theorem linInterpFwd_length (l : List (Option ℚ)) :
    (linInterpFwd l).length = l.length := by
  simp [linInterpFwd]

/-- The final real column has one entry per record. -/
theorem chainBuild_real_length (baseYear : Int) (recs : List Rec) :
    (chainBuild baseYear recs).real.length = recs.length := by
  have h0 : (chainReal0 baseYear recs).length = recs.length := by
    unfold chainReal0
    rw [List.length_set, List.length_replicate]
  have h1 : (chainAnnual baseYear recs).2.length = recs.length := by
    show ((bwd _ _ _ _ (fwd _ _ _ _ (chainReal0 baseYear recs) _).2 _).2).length = _
    rw [bwd_real_length, fwd_real_length, h0]
  have h2 : (chainBuild baseYear recs).realChain.length = recs.length := by
    show ((List.range recs.length).foldl
      (qstep recs (annIdxOf recs) (chainAnnual baseYear recs).1)
      (chainAnnual baseYear recs).2).length = recs.length
    rw [qpass_length, h1]
  have h3 : (chainBuild baseYear recs).real =
      (if (chainBuild baseYear recs).realChain.any (fun o => o.isNone)
        then linInterpFwd (chainBuild baseYear recs).realChain
        else (chainBuild baseYear recs).realChain) := rfl
  rw [h3]
  split
  · rw [linInterpFwd_length, h2]
  · exact h2

/-- C7, counterexample: with the source's GDP columns, the growth-rate
column survives `_convert_gdp_to_real` — the claim says it is absent from
the output. -/
theorem claim_C7_counterexample :
    "国内生产总值-同比增长" ∈ chainOutputCols
      ["date", "国内生产总值-绝对值", "国内生产总值-同比增长"]
      "国内生产总值-绝对值" := by
  decide

/-- C7, amended: the reconstructed real values overwrite the nominal
column in place (the column keeps its name and position), the helper
columns (`year` and the scratch real-value column) are dropped again, and
every other column — including the growth-rate column, which is retained,
not dropped — is unchanged; row-wise, dates, growth rates and all other
cells are exactly those of the date-sorted input. -/
theorem claim_C7 (cols : List String) (valueCol : String)
    (hy : "year" ∉ cols) (hr1 : valueCol ++ "_不变价" ∉ cols)
    (hr2 : valueCol ++ "_不变价" ≠ "year")
    (baseYear : Int) (df : List Rec) (cr : ChainResult)
    (hcr : chainConvert baseYear df = some cr) :
    chainOutputCols cols valueCol = cols ∧
    (chainOutput cr).map ORow.value = cr.real ∧
    (chainOutput cr).map (fun o => (o.date, o.growth, o.others)) =
      cr.recs.map (fun r => (r.date, r.growth, r.others)) := by
  obtain ⟨hdf, hcr'⟩ := chainConvert_eq baseYear df cr hcr
  subst hcr'
  have hlen : (chainBuild baseYear (sortRecs df)).real.length =
      (chainBuild baseYear (sortRecs df)).recs.length :=
    chainBuild_real_length baseYear (sortRecs df)
  refine ⟨?_, ?_, ?_⟩
  · simp only [chainOutputCols, addCol]
    rw [if_neg hy, if_neg (by
      simp only [List.mem_append, List.mem_singleton]
      rintro (h | h)
      · exact hr1 h
      · exact hr2 h)]
    rw [List.filter_append, List.filter_append]
    have h1 : List.filter
        (fun c => !(c == valueCol ++ "_不变价" || c == "year")) cols = cols := by
      refine List.filter_eq_self.mpr ?_
      intro c hc
      simp only [Bool.not_eq_true', Bool.or_eq_false_iff, beq_eq_false_iff_ne]
      exact ⟨fun he => hr1 (he ▸ hc), fun he => hy (he ▸ hc)⟩
    have h2 : List.filter
        (fun c => !(c == valueCol ++ "_不变价" || c == "year")) ["year"] = [] := by
      simp
    have h3 : List.filter
        (fun c => !(c == valueCol ++ "_不变价" || c == "year"))
        [valueCol ++ "_不变价"] = [] := by
      simp
    rw [h1, h2, h3, List.append_nil, List.append_nil]
  · rw [show chainOutput (chainBuild baseYear (sortRecs df)) =
      ((chainBuild baseYear (sortRecs df)).recs.zip
        (chainBuild baseYear (sortRecs df)).real).map
        (fun p => ORow.mk p.1.date p.2 p.1.growth p.1.others) from rfl,
      List.map_map]
    exact List.map_snd_zip _ _ (le_of_eq hlen)
  · have hmf := List.map_fst_zip ((chainBuild baseYear (sortRecs df)).recs)
      ((chainBuild baseYear (sortRecs df)).real) (le_of_eq hlen.symm)
    rw [show chainOutput (chainBuild baseYear (sortRecs df)) =
      ((chainBuild baseYear (sortRecs df)).recs.zip
        (chainBuild baseYear (sortRecs df)).real).map
        (fun p => ORow.mk p.1.date p.2 p.1.growth p.1.others) from rfl,
      List.map_map]
    conv_rhs => rw [← hmf, List.map_map]
    rfl

/-- C7, witness: the amended claim applied at the source's GDP column
names and two concrete records carrying an extra untouched column. -/
theorem claim_C7_witness :
    chainOutputCols ["date", "国内生产总值-绝对值", "国内生产总值-同比增长"]
      "国内生产总值-绝对值" =
      ["date", "国内生产总值-绝对值", "国内生产总值-同比增长"] ∧
    (chainOutput (chainBuild 2015 (sortRecs dfC7))).map ORow.value =
      (chainBuild 2015 (sortRecs dfC7)).real ∧
    (chainOutput (chainBuild 2015 (sortRecs dfC7))).map
      (fun o => (o.date, o.growth, o.others)) =
      (chainBuild 2015 (sortRecs dfC7)).recs.map
        (fun r => (r.date, r.growth, r.others)) :=
  claim_C7 ["date", "国内生产总值-绝对值", "国内生产总值-同比增长"]
    "国内生产总值-绝对值" (by decide) (by decide) (by decide) 2015 dfC7
    (chainBuild 2015 (sortRecs dfC7)) rfl

/-! ## Claim C8 (missing base-year anchor) -/

/-- C8, confirmed: when year-end records exist but none for the configured
base year, the reconstruction anchors at the year in the middle position of
the (date-ordered, hence nondecreasing) year-end records — the upper median
year — sets real = nominal there, emits the substitution warning, and still
returns a result. -/
theorem claim_C8 (baseYear : Int) (df : List Rec) (cr : ChainResult)
    (hcr : chainConvert baseYear df = some cr)
    (hann : ∃ r ∈ df, isAnnual r)
    (hnob : ∀ r ∈ df, isAnnual r → r.date.y ≠ baseYear) :
    some cr.anchorYear = upperMedian (annYearsOf (sortRecs df)) ∧
    Warn.missingBaseYear ∈ cr.warns ∧
    ((cr.L cr.anchorYear).isSome ∧ cr.R cr.anchorYear = cr.L cr.anchorYear) := by
  obtain ⟨hdf, hcr'⟩ := chainConvert_eq baseYear df cr hcr
  subst hcr'
  have hne : sortRecs df ≠ [] := sortRecs_ne_nil df hdf
  have hannS : ∃ r ∈ sortRecs df, isAnnual r := by
    obtain ⟨r, hr, ha⟩ := hann
    refine ⟨r, ?_, ha⟩
    unfold sortRecs
    rw [List.mem_insertionSort]
    exact hr
  have hnotmem : baseYear ∉ annYearsOf (sortRecs df) := by
    intro hmem
    obtain ⟨i, hi, hf⟩ := List.mem_filterMap.mp hmem
    obtain ⟨r, hr, hannr⟩ := annIdxOf_annual (sortRecs df) hannS i hi
    rw [hr] at hf
    have hy : r.date.y = baseYear := by simpa using hf
    have hrmem : r ∈ sortRecs df := by
      obtain ⟨hl, rfl⟩ := List.getElem?_eq_some.mp hr
      exact List.getElem_mem hl
    have hrdf : r ∈ df := by
      unfold sortRecs at hrmem
      rw [List.mem_insertionSort] at hrmem
      exact hrmem
    exact hnob r hrdf hannr hy
  refine ⟨?_, ?_, ?_⟩
  · show some (anchorOf baseYear (sortRecs df)) = _
    unfold anchorOf upperMedian
    rw [if_neg hnotmem]
    have hlen : (annYearsOf (sortRecs df)).length ≠ 0 := by
      rw [annYearsOf_length]
      simp only [ne_eq, List.length_eq_zero]
      exact annIdxOf_ne_nil _ hne
    rw [List.getD_eq_getElem?_getD, List.getElem?_eq_getElem (by omega :
      (annYearsOf (sortRecs df)).length / 2 < (annYearsOf (sortRecs df)).length)]
    rfl
  · show Warn.missingBaseYear ∈ warnsOf baseYear (sortRecs df)
    unfold warnsOf
    rw [if_neg hnotmem]
    exact List.mem_append.mpr (Or.inr (List.mem_singleton.mpr rfl))
  · exact anchor_RL baseYear (sortRecs df) hne

/-- C8, witness: the median-year substitution at four year-end records
2010–2013 with base year 2015 (the anchor becomes 2012). -/
theorem claim_C8_witness :
    some (chainBuild 2015 (sortRecs dfC8)).anchorYear =
      upperMedian (annYearsOf (sortRecs dfC8)) ∧
    Warn.missingBaseYear ∈ (chainBuild 2015 (sortRecs dfC8)).warns ∧
    (((chainBuild 2015 (sortRecs dfC8)).L
        (chainBuild 2015 (sortRecs dfC8)).anchorYear).isSome ∧
      (chainBuild 2015 (sortRecs dfC8)).R
          (chainBuild 2015 (sortRecs dfC8)).anchorYear =
        (chainBuild 2015 (sortRecs dfC8)).L
          (chainBuild 2015 (sortRecs dfC8)).anchorYear) :=
  claim_C8 2015 dfC8 (chainBuild 2015 (sortRecs dfC8)) rfl
    ⟨⟨⟨2010, 12, 31⟩, 500, 1, []⟩, by simp [dfC8], rfl⟩ (by decide)

/-! ## Claim C10 (propagation links available years across gaps) -/

/-- C10, confirmed: propagation links chronologically adjacent AVAILABLE
year-end years, not adjacent calendar years.  For consecutive available
years `p < y` with a gap (`p + 1 < y`): above the anchor,
`R[y] = R[p] * (1 + G[y]/100)`; at or below the anchor,
`R[p] = R[y] / (1 + G[y]/100)` — the one-year rate at `y` is applied
across the multi-year gap. -/
theorem claim_C10 (baseYear : Int) (df : List Rec) (cr : ChainResult)
    (hcr : chainConvert baseYear df = some cr) (p y : Int)
    (hp : p ∈ cr.years) (hy : y ∈ cr.years) (hgap : p + 1 < y)
    (hnob : ∀ c ∈ cr.years, ¬(p < c ∧ c < y)) (gv : ℚ)
    (hg : cr.G y = some gv) :
    (cr.anchorYear ≤ p →
      ∃ rp, cr.R p = some rp ∧ cr.R y = some (rp * (1 + gv / 100))) ∧
    (y ≤ cr.anchorYear →
      ∃ ry, cr.R y = some ry ∧ cr.R p = some (ry / (1 + gv / 100))) := by
  obtain ⟨hdf, hcr'⟩ := chainConvert_eq baseYear df cr hcr
  subst hcr'
  have hne : sortRecs df ≠ [] := sortRecs_ne_nil df hdf
  have hgOf : gOf (sortRecs df) y = gv := gOf_eq _ y gv hg
  constructor
  · intro hanch
    have hps : (lookupA (chainAnnual baseYear (sortRecs df)).1 p).isSome :=
      (chainAnnual_spec baseYear _ hne).2.1 p hp
    obtain ⟨rp, hrp⟩ := Option.isSome_iff_exists.mp hps
    have hstep := chain_forward_step baseYear (sortRecs df) hne p y hp hy
      hanch (by omega) hnob
    refine ⟨rp, hrp, ?_⟩
    show lookupA (chainAnnual baseYear (sortRecs df)).1 y = _
    rw [hstep, hrp, hgOf]
    rfl
  · intro hanch
    have hys : (lookupA (chainAnnual baseYear (sortRecs df)).1 y).isSome :=
      (chainAnnual_spec baseYear _ hne).2.1 y hy
    obtain ⟨ry, hry⟩ := Option.isSome_iff_exists.mp hys
    have hstep := chain_backward_step baseYear (sortRecs df) hne p y hp hy
      hanch (by omega) hnob
    refine ⟨ry, hry, ?_⟩
    show lookupA (chainAnnual baseYear (sortRecs df)).1 p = _
    rw [hstep, hry, hgOf]
    rfl

set_option maxRecDepth 100000 in
/-- C10, witness: with available years 2013, 2015 (anchor), 2018, the
forward step applies 2018's one-year rate across the 2015→2018 gap and the
backward step applies 2015's rate across the 2013→2015 gap. -/
theorem claim_C10_witness :
    (∃ rp, (chainBuild 2015 (sortRecs dfC10)).R 2015 = some rp ∧
      (chainBuild 2015 (sortRecs dfC10)).R 2018 =
        some (rp * (1 + 10 / 100))) ∧
    (∃ ry, (chainBuild 2015 (sortRecs dfC10)).R 2015 = some ry ∧
      (chainBuild 2015 (sortRecs dfC10)).R 2013 =
        some (ry / (1 + 4 / 100))) :=
  ⟨(claim_C10 2015 dfC10 (chainBuild 2015 (sortRecs dfC10)) rfl 2015 2018
      (by with_unfolding_all decide) (by with_unfolding_all decide)
      (by omega) (by with_unfolding_all decide) 10
      (by with_unfolding_all decide)).1 (by with_unfolding_all decide),
   (claim_C10 2015 dfC10 (chainBuild 2015 (sortRecs dfC10)) rfl 2013 2015
      (by with_unfolding_all decide) (by with_unfolding_all decide)
      (by omega) (by with_unfolding_all decide) 4
      (by with_unfolding_all decide)).2 (by with_unfolding_all decide)⟩

/-! ## Claim C9 (unified panel outer join) -/

/-- Key search succeeds exactly when the key occurs. -/
theorem find?_key_isSome {α β : Type _} [BEq α] [LawfulBEq α]
    (l : List (α × β)) (k : α) :
    ((l.find? (fun r => r.1 == k)).isSome) ↔ k ∈ l.map Prod.fst := by
  induction l with
  | nil => simp
  | cons x xs ih =>
    by_cases hx : x.1 = k
    · rw [List.find?_cons_of_pos _ (by simp [hx])]
      simp [hx]
    · rw [List.find?_cons_of_neg _ (by simp [hx])]
      simp only [List.map_cons, List.mem_cons]
      rw [ih]
      constructor
      · exact Or.inr
      · rintro (he | hm)
        · exact absurd he.symm hx
        · exact hm

/-- What key search returns. -/
theorem find?_key_eq_some {α β : Type _} [BEq α] [LawfulBEq α]
    {l : List (α × β)} {k : α} {r : α × β}
    (h : l.find? (fun r => r.1 == k) = some r) : r ∈ l ∧ r.1 = k :=
  ⟨List.mem_of_find?_eq_some h, by simpa using List.find?_some h⟩

/-- With nodup keys an entry is determined by its key. -/
theorem unique_key {α β : Type _} :
    ∀ {l : List (α × β)}, (l.map Prod.fst).Nodup →
      ∀ {r r' : α × β}, r ∈ l → r' ∈ l → r.1 = r'.1 → r = r' := by
  intro l
  induction l with
  | nil => intro _ r r' h; cases h
  | cons x xs ih =>
    intro hnd r r' hr hr' hk
    rw [List.map_cons, List.nodup_cons] at hnd
    rcases List.mem_cons.mp hr with he | hr2
    · rcases List.mem_cons.mp hr' with he' | hr2'
      · rw [he, he']
      · exfalso
        apply hnd.1
        rw [← he, hk]
        exact List.mem_map.mpr ⟨r', hr2', rfl⟩
    · rcases List.mem_cons.mp hr' with he' | hr2'
      · exfalso
        apply hnd.1
        rw [← he', ← hk]
        exact List.mem_map.mpr ⟨r, hr2, rfl⟩
      · exact ih hnd.2 hr2 hr2' hk

/-- With nodup keys, key search is invariant under permutation. -/
theorem find?_key_perm {α β : Type _} [BEq α] [LawfulBEq α]
    {l l' : List (α × β)} (hp : l.Perm l')
    (hnd : (l.map Prod.fst).Nodup) (k : α) :
    l.find? (fun r => r.1 == k) = l'.find? (fun r => r.1 == k) := by
  cases h : l.find? (fun r => r.1 == k) with
  | none =>
    rw [List.find?_eq_none] at h
    symm
    rw [List.find?_eq_none]
    intro x hx
    exact h x (hp.mem_iff.mpr hx)
  | some r =>
    obtain ⟨hr, hk⟩ := find?_key_eq_some h
    have hs : (l'.find? (fun r => r.1 == k)).isSome := by
      rw [find?_key_isSome]
      exact List.mem_map.mpr ⟨r, hp.mem_iff.mp hr, hk⟩
    obtain ⟨r', hr'⟩ := Option.isSome_iff_exists.mp hs
    obtain ⟨hr'mem, hk'⟩ := find?_key_eq_some hr'
    rw [hr']
    congr 1
    exact unique_key hnd hr (hp.mem_iff.mpr hr'mem) (hk.trans hk'.symm)

/-- Searching an all-missing row finds the missing cell. -/
theorem find?_noneCells (cols : List String) (c : String) (hc : c ∈ cols) :
    (noneCells cols).find? (fun kv => kv.1 == c) = some (c, none) := by
  induction cols with
  | nil => cases hc
  | cons x xs ih =>
    unfold noneCells
    rw [List.map_cons]
    by_cases hx : x = c
    · subst hx
      rw [List.find?_cons_of_pos _ (by simp)]
    · rw [List.find?_cons_of_neg _ (by simp [hx])]
      exact ih (by rcases List.mem_cons.mp hc with h | h
                   · exact absurd h.symm hx
                   · exact h)

/-- The keys of an all-missing row. -/
theorem noneCells_fst (cols : List String) :
    (noneCells cols).map Prod.fst = cols := by
  unfold noneCells
  rw [List.map_map]
  exact List.map_id cols

/-- `df.any` on the date column tests date membership. -/
theorem any_date_iff (p : Panel) (d : Date) :
    (p.rows.any (fun q => q.1 == d)) = true ↔ d ∈ p.rows.map Prod.fst := by
  rw [List.any_eq_true]
  constructor
  · rintro ⟨q, hq, he⟩
    exact List.mem_map.mpr ⟨q, hq, beq_iff_eq.mp he⟩
  · intro hm
    obtain ⟨q, hq, rfl⟩ := List.mem_map.mp hm
    exact ⟨q, hq, beq_self_eq_true _⟩

/-- The date column of a merge: the left dates followed by the
left-missing right dates. -/
theorem mergeOuter_datesEq (p s : Panel) :
    (mergeOuter p s).rows.map Prod.fst =
      p.rows.map Prod.fst ++
        (s.rows.filter
          (fun r => !(p.rows.any (fun q => q.1 == r.1)))).map Prod.fst := by
  unfold mergeOuter
  simp only [List.map_append, List.map_map]
  rfl

/-- The merged date domain is the union of the two date domains. -/
theorem mem_dates_mergeOuter (p s : Panel) (d : Date) :
    d ∈ (mergeOuter p s).rows.map Prod.fst ↔
      d ∈ p.rows.map Prod.fst ∨ d ∈ s.rows.map Prod.fst := by
  rw [mergeOuter_datesEq, List.mem_append]
  constructor
  · rintro (h | h)
    · exact Or.inl h
    · right
      obtain ⟨r, hr, rfl⟩ := List.mem_map.mp h
      exact List.mem_map.mpr ⟨r, (List.mem_filter.mp hr).1, rfl⟩
  · rintro (h | h)
    · exact Or.inl h
    · by_cases hp : d ∈ p.rows.map Prod.fst
      · exact Or.inl hp
      · right
        obtain ⟨r, hr, rfl⟩ := List.mem_map.mp h
        refine List.mem_map.mpr ⟨r, List.mem_filter.mpr ⟨hr, ?_⟩, rfl⟩
        cases hb : p.rows.any (fun q => q.1 == r.1) with
        | false => rfl
        | true => exact absurd ((any_date_iff p r.1).mp hb) hp

/-- Merging keeps the one-row-per-date invariant. -/
theorem mergeOuter_nodupDates (p s : Panel)
    (hp : NodupDates p) (hs : NodupDates s) : NodupDates (mergeOuter p s) := by
  unfold NodupDates
  rw [mergeOuter_datesEq, List.nodup_append]
  refine ⟨hp, ?_, ?_⟩
  · exact hs.sublist ((List.filter_sublist _).map Prod.fst)
  · intro d hd hd2
    obtain ⟨r, hr, rfl⟩ := List.mem_map.mp hd2
    have hf := (List.mem_filter.mp hr).2
    cases hb : p.rows.any (fun q => q.1 == r.1) with
    | true =>
      rw [hb] at hf
      cases hf
    | false => exact absurd ((any_date_iff p r.1).mpr hd) (by simp [hb])

/-- A successful row lookup returns a row of the panel. -/
theorem lookupRow_mem (s : Panel) (d : Date) (cells : List (String × Option ℚ))
    (h : lookupRow s d = some cells) : ∃ r ∈ s.rows, r.1 = d ∧ r.2 = cells := by
  unfold lookupRow at h
  cases hf : s.rows.find? (fun r => r.1 == d) with
  | none =>
    rw [hf] at h
    cases h
  | some r =>
    rw [hf] at h
    obtain ⟨hm, hk⟩ := find?_key_eq_some hf
    exact ⟨r, hm, hk, by simpa using h⟩

/-- Merging two well-formed panels yields a well-formed panel over the
concatenated columns. -/
theorem mergeOuter_WFP (p s : Panel) (hp : WFP p) (hs : WFP s) :
    WFP (mergeOuter p s) := by
  intro r hr
  unfold mergeOuter at hr
  simp only [List.mem_append, List.mem_map] at hr
  rcases hr with ⟨q, hq, rfl⟩ | ⟨q, hq, rfl⟩
  · show (q.2 ++ (lookupRow s q.1).getD (noneCells s.cols)).map Prod.fst =
      p.cols ++ s.cols
    rw [List.map_append, hp q hq]
    congr 1
    cases hl : lookupRow s q.1 with
    | none => exact noneCells_fst s.cols
    | some cells =>
      obtain ⟨r', hr', _, hc⟩ := lookupRow_mem s q.1 cells hl
      simp only [Option.getD_some]
      rw [← hc]
      exact hs r' hr'
  · show (noneCells p.cols ++ q.2).map Prod.fst = p.cols ++ s.cols
    rw [List.map_append, noneCells_fst]
    congr 1
    exact hs q (List.mem_filter.mp hq).1

/-- Filtering by a predicate that holds on every row of a given key does
not change the first row found for that key. -/
theorem find?_filter_key {β : Type _} (l : List (Date × β)) (d : Date)
    (q : Date × β → Bool) (hq : ∀ r ∈ l, r.1 = d → q r = true) :
    (l.filter q).find? (fun r => r.1 == d) = l.find? (fun r => r.1 == d) := by
  induction l with
  | nil => rfl
  | cons x xs ih =>
    have ih' := ih (fun r hr hk => hq r (List.mem_cons_of_mem x hr) hk)
    by_cases hx : x.1 = d
    · rw [List.filter_cons, if_pos (hq x (List.mem_cons_self x xs) hx),
        List.find?_cons_of_pos _ (by simp [hx]),
        List.find?_cons_of_pos _ (by simp [hx])]
    · rw [List.filter_cons]
      split
      · rw [List.find?_cons_of_neg _ (by simp [hx]),
          List.find?_cons_of_neg _ (by simp [hx])]
        exact ih'
      · rw [List.find?_cons_of_neg _ (by simp [hx])]
        exact ih'

/-- Looking up an existing left date in a merge: the left row extended by
the right row's cells (or an all-missing pad). -/
theorem lookupRow_mergeOuter_left (p s : Panel) (d : Date)
    (hd : d ∈ p.rows.map Prod.fst) :
    lookupRow (mergeOuter p s) d =
      (lookupRow p d).map
        (fun cells => cells ++ ((lookupRow s d).getD (noneCells s.cols))) := by
  conv_lhs => rw [lookupRow]
  unfold mergeOuter
  rw [List.find?_append, List.find?_map]
  cases hf : p.rows.find? (fun r => r.1 == d) with
  | none =>
    exfalso
    have h := (find?_key_isSome p.rows d).mpr hd
    rw [hf] at h
    cases h
  | some r =>
    obtain ⟨_, hk⟩ := find?_key_eq_some hf
    have hf' : p.rows.find? ((fun r : Date × List (String × Option ℚ) =>
        r.1 == d) ∘ (fun r : Date × List (String × Option ℚ) =>
        (r.1, r.2 ++ ((lookupRow s r.1).getD (noneCells s.cols))))) = some r := hf
    rw [hf']
    have hlp : lookupRow p d = some r.2 := by
      unfold lookupRow
      rw [hf]
      rfl
    rw [hlp]
    show some (r.2 ++ ((lookupRow s r.1).getD (noneCells s.cols))) =
      some (r.2 ++ ((lookupRow s d).getD (noneCells s.cols)))
    rw [hk]

/-- Looking up a date absent on the left: the right row padded on the left
with missing cells. -/
theorem lookupRow_mergeOuter_right (p s : Panel) (d : Date)
    (hdp : d ∉ p.rows.map Prod.fst) :
    lookupRow (mergeOuter p s) d =
      (lookupRow s d).map (fun cells => noneCells p.cols ++ cells) := by
  conv_lhs => rw [lookupRow]
  unfold mergeOuter
  rw [List.find?_append, List.find?_map]
  have h1 : p.rows.find? ((fun r : Date × List (String × Option ℚ) =>
      r.1 == d) ∘ (fun r : Date × List (String × Option ℚ) =>
      (r.1, r.2 ++ ((lookupRow s r.1).getD (noneCells s.cols))))) = none := by
    rw [List.find?_eq_none]
    intro x hx hbe
    exact hdp (List.mem_map.mpr ⟨x, hx, by simpa using hbe⟩)
  rw [h1]
  simp only [Option.map_none', Option.none_or]
  rw [List.find?_map]
  have h2 : (s.rows.filter
      (fun r => !(p.rows.any (fun q => q.1 == r.1)))).find?
      ((fun r : Date × List (String × Option ℚ) => r.1 == d) ∘
        (fun r : Date × List (String × Option ℚ) =>
          (r.1, noneCells p.cols ++ r.2))) =
      (s.rows.filter
        (fun r => !(p.rows.any (fun q => q.1 == r.1)))).find?
        (fun r => r.1 == d) := rfl
  rw [h2, find?_filter_key]
  · have hls : lookupRow s d =
        ((s.rows.find? (fun r => r.1 == d)).map Prod.snd) := rfl
    rw [hls]
    cases hf : s.rows.find? (fun r => r.1 == d) with
    | none => rfl
    | some r => rfl
  · intro r _ hk
    cases hb : p.rows.any (fun q => q.1 == r.1) with
    | false => rfl
    | true =>
      exfalso
      exact hdp (hk ▸ (any_date_iff p r.1).mp hb)

/-- Merging preserves the cells of existing left dates at left columns. -/
theorem getCell_mergeOuter_pres (p s : Panel) (hp : WFP p) (d : Date)
    (c : String) (hd : d ∈ p.rows.map Prod.fst) (hc : c ∈ p.cols) :
    getCell (mergeOuter p s) d c = getCell p d c := by
  unfold getCell
  rw [lookupRow_mergeOuter_left p s d hd]
  cases hl : lookupRow p d with
  | none => rfl
  | some cells =>
    simp only [Option.map_some', Option.some_bind]
    obtain ⟨r, hr, _, hcells⟩ := lookupRow_mem p d cells hl
    have hkeys : cells.map Prod.fst = p.cols := by
      rw [← hcells]
      exact hp r hr
    rw [List.find?_append]
    have hs : (cells.find? (fun kv => kv.1 == c)).isSome :=
      (find?_key_isSome cells c).mpr (by rw [hkeys]; exact hc)
    obtain ⟨kv, hkv⟩ := Option.isSome_iff_exists.mp hs
    rw [hkv]
    rfl

/-- A date present only on the right appears in the merge with every left
column missing. -/
theorem getCell_mergeOuter_newdate (p s : Panel) (d : Date) (c : String)
    (hdp : d ∉ p.rows.map Prod.fst) (hds : d ∈ s.rows.map Prod.fst)
    (hc : c ∈ p.cols) :
    getCell (mergeOuter p s) d c = some none := by
  unfold getCell
  rw [lookupRow_mergeOuter_right p s d hdp]
  have hs : (lookupRow s d).isSome := by
    unfold lookupRow
    have := (find?_key_isSome s.rows d).mpr hds
    cases hf : s.rows.find? (fun r => r.1 == d) with
    | none =>
      rw [hf] at this
      cases this
    | some r => rfl
  obtain ⟨cells, hcells⟩ := Option.isSome_iff_exists.mp hs
  rw [hcells]
  simp only [Option.map_some', Option.some_bind]
  rw [List.find?_append, find?_noneCells p.cols c hc]
  rfl

/-- A date present only on the left appears in the merge with every right
column missing. -/
theorem getCell_mergeOuter_othermiss (p s : Panel) (hp : WFP p) (d : Date)
    (c : String) (hd : d ∈ p.rows.map Prod.fst)
    (hdnots : d ∉ s.rows.map Prod.fst) (hcp : c ∉ p.cols) (hcs : c ∈ s.cols) :
    getCell (mergeOuter p s) d c = some none := by
  unfold getCell
  rw [lookupRow_mergeOuter_left p s d hd]
  cases hl : lookupRow p d with
  | none =>
    exfalso
    have h := (find?_key_isSome p.rows d).mpr hd
    unfold lookupRow at hl
    cases hf : p.rows.find? (fun r => r.1 == d) with
    | none =>
      rw [hf] at h
      cases h
    | some r =>
      rw [hf] at hl
      cases hl
  | some cells =>
    simp only [Option.map_some', Option.some_bind]
    have hlookupS : lookupRow s d = none := by
      unfold lookupRow
      have h2 : s.rows.find? (fun r => r.1 == d) = none := by
        rw [List.find?_eq_none]
        intro x hx hbe
        exact hdnots (List.mem_map.mpr ⟨x, hx, by simpa using hbe⟩)
      rw [h2]
      rfl
    rw [hlookupS]
    simp only [Option.getD_none]
    obtain ⟨r, hr, _, hcells⟩ := lookupRow_mem p d cells hl
    have hkeys : cells.map Prod.fst = p.cols := by
      rw [← hcells]
      exact hp r hr
    rw [List.find?_append]
    have hnone : cells.find? (fun kv => kv.1 == c) = none := by
      rw [List.find?_eq_none]
      intro kv hkv hbe
      refine hcp ?_
      rw [← hkeys]
      exact List.mem_map.mpr ⟨kv, hkv, by simpa using hbe⟩
    rw [hnone, find?_noneCells s.cols c hcs]
    rfl

/-- Sorting permutes the rows. -/
theorem sortPanel_perm (p : Panel) : (sortPanel p).rows.Perm p.rows :=
  List.perm_insertionSort _ _

/-- Sorting sorts the rows by date ascending. -/
theorem sortPanel_sorted (p : Panel) :
    List.Sorted prowLE (sortPanel p).rows :=
  List.sorted_insertionSort _ _

/-- Sorting does not change any cell (given unique dates). -/
theorem getCell_sortPanel (p : Panel) (hnd : NodupDates p) (d : Date)
    (c : String) : getCell (sortPanel p) d c = getCell p d c := by
  unfold getCell lookupRow
  rw [find?_key_perm (sortPanel_perm p)
    (((sortPanel_perm p).map Prod.fst).nodup_iff.mpr hnd) d]

/-- Invariant of the iterated outer merge: starting from an accumulator
that already combines the panels of `done`, folding the panels of `todo`
yields a well-formed panel with unique dates whose date domain is the
union of all contributing panels' date domains, and in which every column
of a contributing panel is recorded as a missing cell at each merged date
absent from that panel. -/
theorem foldl_merge_spec (todo : List Panel) :
    ∀ (acc : Panel) (done : List Panel),
    (∀ s ∈ done ++ todo, WFP s) →
    (∀ s ∈ done ++ todo, NodupDates s) →
    (((done ++ todo).map Panel.cols).flatten).Nodup →
    WFP acc →
    NodupDates acc →
    acc.cols = (done.map Panel.cols).flatten →
    (∀ d, d ∈ acc.rows.map Prod.fst ↔ ∃ s ∈ done, d ∈ s.rows.map Prod.fst) →
    (∀ s ∈ done, ∀ c ∈ s.cols, ∀ d ∈ acc.rows.map Prod.fst,
      d ∉ s.rows.map Prod.fst → getCell acc d c = some none) →
    WFP (todo.foldl mergeOuter acc) ∧
    NodupDates (todo.foldl mergeOuter acc) ∧
    (∀ d, d ∈ (todo.foldl mergeOuter acc).rows.map Prod.fst ↔
      ∃ s ∈ done ++ todo, d ∈ s.rows.map Prod.fst) ∧
    (∀ s ∈ done ++ todo, ∀ c ∈ s.cols,
      ∀ d ∈ (todo.foldl mergeOuter acc).rows.map Prod.fst,
      d ∉ s.rows.map Prod.fst →
      getCell (todo.foldl mergeOuter acc) d c = some none) := by
  induction todo with
  | nil =>
    intro acc done hwf hnd hcols hwacc hndacc hcacc hdates hmiss
    simp only [List.append_nil] at hwf hnd hcols ⊢
    exact ⟨hwacc, hndacc, hdates, hmiss⟩
  | cons s t ih =>
    intro acc done hwf hnd hcols hwacc hndacc hcacc hdates hmiss
    simp only [List.foldl_cons]
    have heq : (done ++ [s]) ++ t = done ++ s :: t := by
      rw [List.append_assoc]
      rfl
    have hsmem : s ∈ done ++ s :: t := by simp
    have hdisj : ∀ c ∈ s.cols, c ∉ acc.cols := by
      intro c hcs hca
      rw [hcacc] at hca
      have h1 : ((done ++ s :: t).map Panel.cols).flatten =
          (done.map Panel.cols).flatten ++
            (s.cols ++ (t.map Panel.cols).flatten) := by
        rw [List.map_append, List.flatten_append]
        rfl
      rw [h1] at hcols
      exact (List.nodup_append.mp hcols).2.2 hca
        (List.mem_append.mpr (Or.inl hcs))
    have hwf' : ∀ x ∈ (done ++ [s]) ++ t, WFP x := by
      rw [heq]; exact hwf
    have hnd' : ∀ x ∈ (done ++ [s]) ++ t, NodupDates x := by
      rw [heq]; exact hnd
    have hcols' : ((((done ++ [s]) ++ t).map Panel.cols).flatten).Nodup := by
      rw [heq]; exact hcols
    have hws : WFP s := hwf s hsmem
    have hnds : NodupDates s := hnd s hsmem
    have hwacc' : WFP (mergeOuter acc s) := mergeOuter_WFP acc s hwacc hws
    have hndacc' : NodupDates (mergeOuter acc s) :=
      mergeOuter_nodupDates acc s hndacc hnds
    have hcacc' : (mergeOuter acc s).cols =
        ((done ++ [s]).map Panel.cols).flatten := by
      show acc.cols ++ s.cols = _
      rw [List.map_append, List.flatten_append, hcacc]
      simp
    have hdates' : ∀ d, d ∈ (mergeOuter acc s).rows.map Prod.fst ↔
        ∃ x ∈ done ++ [s], d ∈ x.rows.map Prod.fst := by
      intro d
      rw [mem_dates_mergeOuter, hdates d]
      constructor
      · rintro (⟨x, hx, hdx⟩ | hds)
        · exact ⟨x, List.mem_append.mpr (Or.inl hx), hdx⟩
        · exact ⟨s, List.mem_append.mpr (Or.inr (List.mem_singleton.mpr rfl)),
            hds⟩
      · rintro ⟨x, hx, hdx⟩
        rcases List.mem_append.mp hx with hx | hx
        · exact Or.inl ⟨x, hx, hdx⟩
        · rw [List.mem_singleton.mp hx] at hdx
          exact Or.inr hdx
    have hmiss' : ∀ x ∈ done ++ [s], ∀ c ∈ x.cols,
        ∀ d ∈ (mergeOuter acc s).rows.map Prod.fst,
        d ∉ x.rows.map Prod.fst →
        getCell (mergeOuter acc s) d c = some none := by
      intro x hx c hc d hd hdnx
      rcases List.mem_append.mp hx with hxd | hxs
      · have hca : c ∈ acc.cols := by
          rw [hcacc]
          exact List.mem_flatten.mpr ⟨x.cols, List.mem_map.mpr ⟨x, hxd, rfl⟩, hc⟩
        by_cases hda : d ∈ acc.rows.map Prod.fst
        · rw [getCell_mergeOuter_pres acc s hwacc d c hda hca]
          exact hmiss x hxd c hc d hda hdnx
        · have hds : d ∈ s.rows.map Prod.fst := by
            rcases (mem_dates_mergeOuter acc s d).mp hd with h | h
            · exact absurd h hda
            · exact h
          exact getCell_mergeOuter_newdate acc s d c hda hds hca
      · rw [List.mem_singleton.mp hxs] at hc hdnx
        have hda : d ∈ acc.rows.map Prod.fst := by
          rcases (mem_dates_mergeOuter acc s d).mp hd with h | h
          · exact h
          · exact absurd h hdnx
        exact getCell_mergeOuter_othermiss acc s hwacc d c hda hdnx
          (hdisj c hc) hc
    have hres := ih (mergeOuter acc s) (done ++ [s]) hwf' hnd' hcols'
      hwacc' hndacc' hcacc' hdates' hmiss'
    rw [heq] at hres
    exact hres

/-- C9: the unified panel built by `create_unified_dataset` is a full
outer join on the date key: for well-formed monthly input panels (one row
per date, rows over the panel's columns, pairwise distinct renamed column
names) the merged panel's date domain equals the union of all contributing
panels' date domains, its rows are sorted ascending by date, and a column
of a contributing panel is recorded as a missing cell — never by dropping
the row — at every merged date at which that panel has no row. -/
theorem claim_C9 (base : Panel) (others : List Panel)
    (hwf : ∀ s ∈ base :: others, WFP s)
    (hnd : ∀ s ∈ base :: others, NodupDates s)
    (hcols : (((base :: others).map Panel.cols).flatten).Nodup) :
    (∀ d, d ∈ (createUnified base others).dates ↔
      ∃ s ∈ base :: others, d ∈ s.dates) ∧
    List.Sorted prowLE (createUnified base others).rows ∧
    (∀ s ∈ base :: others, ∀ c ∈ s.cols,
      ∀ d ∈ (createUnified base others).dates, d ∉ s.dates →
      getCell (createUnified base others) d c = some none) := by
  simp only [Panel.dates]
  have hinit : ∀ d, d ∈ base.rows.map Prod.fst ↔
      ∃ s ∈ [base], d ∈ s.rows.map Prod.fst := by
    intro d
    constructor
    · intro h
      exact ⟨base, List.mem_singleton.mpr rfl, h⟩
    · rintro ⟨s, hs, hd⟩
      rw [List.mem_singleton.mp hs] at hd
      exact hd
  have hmiss0 : ∀ s ∈ [base], ∀ c ∈ s.cols, ∀ d ∈ base.rows.map Prod.fst,
      d ∉ s.rows.map Prod.fst → getCell base d c = some none := by
    intro s hs c _ d hd hdn
    rw [List.mem_singleton.mp hs] at hdn
    exact absurd hd hdn
  have hspec := foldl_merge_spec others base [base]
    (by simpa using hwf) (by simpa using hnd) (by simpa using hcols)
    (hwf base (List.mem_cons_self _ _)) (hnd base (List.mem_cons_self _ _))
    (by simp) hinit hmiss0
  obtain ⟨hwm, hndm, hdm, hmm⟩ := hspec
  have hperm : (createUnified base others).rows.Perm
      (others.foldl mergeOuter base).rows :=
    sortPanel_perm (others.foldl mergeOuter base)
  have hdeq : ∀ d, d ∈ (createUnified base others).rows.map Prod.fst ↔
      d ∈ (others.foldl mergeOuter base).rows.map Prod.fst :=
    fun d => (hperm.map Prod.fst).mem_iff
  refine ⟨?_, sortPanel_sorted _, ?_⟩
  · intro d
    rw [hdeq d, hdm d]
    constructor
    · rintro ⟨s, hs, hd⟩
      exact ⟨s, by simpa using hs, hd⟩
    · rintro ⟨s, hs, hd⟩
      exact ⟨s, by simpa using hs, hd⟩
  · intro s hs c hc d hd hdn
    have hd' := (hdeq d).mp hd
    rw [show createUnified base others =
      sortPanel (others.foldl mergeOuter base) from rfl,
      getCell_sortPanel _ hndm d c]
    exact hmm s (by simpa using hs) c hc d hd' hdn

/-- C9, witness: the outer-join claim applied at two concrete
single-column panels overlapping on one date. -/
theorem claim_C9_witness :
    (∀ s ∈ basePanel :: [otherPanel], WFP s) ∧
    (∀ s ∈ basePanel :: [otherPanel], NodupDates s) ∧
    ((((basePanel :: [otherPanel]).map Panel.cols).flatten).Nodup) ∧
    ((∀ d, d ∈ (createUnified basePanel [otherPanel]).dates ↔
      ∃ s ∈ basePanel :: [otherPanel], d ∈ s.dates) ∧
    List.Sorted prowLE (createUnified basePanel [otherPanel]).rows ∧
    (∀ s ∈ basePanel :: [otherPanel], ∀ c ∈ s.cols,
      ∀ d ∈ (createUnified basePanel [otherPanel]).dates, d ∉ s.dates →
      getCell (createUnified basePanel [otherPanel]) d c = some none)) :=
  ⟨by decide, by decide, by decide,
    claim_C9 basePanel [otherPanel] (by decide) (by decide) (by decide)⟩

end TS
